import Mathlib

/-!
Verification of the POD2 core against its implementation.

This file shallowly embeds the Rust sources of the POD2 repository
(`src/middleware/mod.rs`, `src/middleware/statement.rs`,
`src/middleware/operation.rs`, `src/primitives/merkletree_new.rs`,
`src/backends/mock_main.rs`) into Lean and settles the frozen claims
about them.

Modelling conventions:
* A Goldilocks field element is represented by its canonical `u64`
  value as a `Nat` (the code only manipulates canonical values via
  `to_canonical_u64` / `from_canonical_u64`).
* The Poseidon permutation is external to the core; every definition
  that hashes takes an abstract hash function `h : List Nat → Hash` as
  a parameter, exactly as the code treats `PoseidonHash::hash_no_pad`
  as an opaque collision-resistant function.
* Rust `u64` arithmetic that can wrap is modelled with explicit
  `% 2^64`.
* Fallible Rust code (`Result`) is modelled with `Except String`,
  panics (`fill_pad`) with `Option`.
-/

namespace Pod2

/-- A hash digest: four field elements (`Hash(pub [F; 4])`). -/
structure Hash where
  h0 : Nat
  h1 : Nat
  h2 : Nat
  h3 : Nat
deriving DecidableEq, Repr

/-- A value: four field elements (`Value(pub [F; 4])`). -/
structure Value where
  v0 : Nat
  v1 : Nat
  v2 : Nat
  v3 : Nat
deriving DecidableEq, Repr

/-- The field elements of a hash, in limb order. -/
def Hash.fields (h : Hash) : List Nat := [h.h0, h.h1, h.h2, h.h3]

/-- The field elements of a value, in limb order. -/
def Value.fields (v : Value) : List Nat := [v.v0, v.v1, v.v2, v.v3]

/-- `NULL`: the all-zero hash. -/
def NULL : Hash := ⟨0, 0, 0, 0⟩

/-- `EMPTY`: the all-zero value. -/
def EMPTY : Value := ⟨0, 0, 0, 0⟩

/-- `PodId(pub Hash)`. -/
structure PodId where
  id : Hash
deriving DecidableEq, Repr

/-- `SELF`: the pod id `Hash([1, 0, 0, 0])`. -/
def SELF : PodId := ⟨⟨1, 0, 0, 0⟩⟩

/-- `AnchoredKey(pub PodId, pub Hash)`. -/
structure AnchoredKey where
  pod : PodId
  key : Hash
deriving DecidableEq, Repr

/-! ## The i64 embedding (`impl From<i64> for Value`, `impl TryInto<i64> for Value`) -/

/-- Rust `v as u64` for `v : i64`: the two's-complement reinterpretation. -/
def i64ToU64 (v : Int) : Nat := (v % (2 ^ 64)).toNat

/-- Rust `u as i64` for `u : u64`: the two's-complement reinterpretation. -/
def u64ToI64 (u : Nat) : Int :=
  if u < 2 ^ 63 then (u : Int) else (u : Int) - 2 ^ 64

/-- `impl From<i64> for Value`:
`lo = (v as u64) & 0xffffffff`, `hi = (v as u64) >> 32`,
result `Value([lo, hi, 0, 0])`. -/
def valueFromI64 (v : Int) : Value :=
  let u := i64ToU64 v
  ⟨u % 2 ^ 32, u / 2 ^ 32, 0, 0⟩

/-- `impl TryInto<i64> for Value`. The error condition is taken verbatim
from the source: error when `value[2..] != [0, 0]` OR when *all* of
`value[0], value[1]` exceed `u32::MAX`.  The success value is
`(value[0] + value[1] << 32) as i64`, which by Rust precedence is
`((value[0] + value[1]) << 32) as i64`, in wrapping `u64` arithmetic. -/
def tryIntoI64 (v : Value) : Except String Int :=
  if (v.v2 ≠ 0 ∨ v.v3 ≠ 0) ∨ (v.v0 > 2 ^ 32 - 1 ∧ v.v1 > 2 ^ 32 - 1) then
    .error "Value not an element of the i64 embedding."
  else
    .ok (u64ToI64 ((((v.v0 + v.v1) % 2 ^ 64) <<< 32) % 2 ^ 64))

/-- What the spec mandates instead: decode as `lo + (hi << 32)`,
shift applied before the addition. Modelled from the spec for
comparison with `tryIntoI64`. -/
def specDecodeI64 (v : Value) : Int :=
  u64ToI64 ((v.v0 + (v.v1 <<< 32)) % 2 ^ 64)

/-! ## `hash_str` -/

/-- Helper for `chunks7`, structurally recursive on a fuel argument
that bounds the list length (so the definition evaluates by `rfl`). -/
def chunks7Aux : Nat → List Nat → List (List Nat)
  | _, [] => []
  | 0, _ :: _ => []
  | fuel + 1, l@(_ :: _) => l.take 7 :: chunks7Aux fuel (l.drop 7)

/-- `input.chunks(7)`: split a byte list into consecutive chunks of 7
(the last chunk may be shorter). -/
def chunks7 (l : List Nat) : List (List Nat) := chunks7Aux l.length l

/-- The per-chunk fold of `hash_str`:
`for b in bytes.iter().rev() { v <<= 8; v += b }`. -/
def packChunk (c : List Nat) : Nat :=
  c.reverse.foldl (fun v b => v * 256 + b) 0

/-- `hash_str`: append a `0x01` pad byte, fold into field elements
7 bytes at a time with `packChunk`, then hash.  The string is
represented by its UTF-8 byte list; the Poseidon hash is the abstract
parameter `h`. -/
def hash_str (h : List Nat → Hash) (s : List Nat) : Hash :=
  h ((chunks7 (s ++ [1])).map packChunk)

/-- Little-endian-within-chunk packing as a positional sum: the first
byte of the chunk is the least significant. -/
def packChunkLE (c : List Nat) : Nat :=
  c.foldr (fun b acc => b + 256 * acc) 0

/-- Big-endian-within-chunk packing: the first byte of the chunk is the
most significant.  Modelled from the spec for comparison. -/
def packChunkBE (c : List Nat) : Nat :=
  c.foldl (fun v b => v * 256 + b) 0

/-! ## Statements and their serialization -/

/-- `NativePredicate` (= `NativeStatement` in `mod.rs`): the stable
numeric predicate codes. -/
inductive NativePredicate
  | None
  | ValueOf
  | Equal
  | NotEqual
  | Gt
  | Lt
  | Contains
  | NotContains
  | SumOf
  | ProductOf
  | MaxOf
deriving DecidableEq, Repr

/-- The numeric code of a native predicate (`self as u64`). -/
def NativePredicate.toNat : NativePredicate → Nat
  | .None => 0
  | .ValueOf => 1
  | .Equal => 2
  | .NotEqual => 3
  | .Gt => 4
  | .Lt => 5
  | .Contains => 6
  | .NotContains => 7
  | .SumOf => 8
  | .ProductOf => 9
  | .MaxOf => 10

/-- `impl ToFields for NativePredicate`: one field element. -/
def NativePredicate.toFields (p : NativePredicate) : List Nat × Nat :=
  ([p.toNat], 1)

/-- The `Statement` enum. -/
inductive Statement
  | None
  | ValueOf (ak : AnchoredKey) (v : Value)
  | Equal (a b : AnchoredKey)
  | NotEqual (a b : AnchoredKey)
  | Gt (a b : AnchoredKey)
  | Lt (a b : AnchoredKey)
  | Contains (a b : AnchoredKey)
  | NotContains (a b : AnchoredKey)
  | SumOf (a b c : AnchoredKey)
  | ProductOf (a b c : AnchoredKey)
  | MaxOf (a b c : AnchoredKey)
deriving DecidableEq, Repr

/-- The `StatementArg` enum. -/
inductive StatementArg
  | None
  | Literal (v : Value)
  | Key (ak : AnchoredKey)
deriving DecidableEq, Repr

/-- `Statement::code`. -/
def Statement.code : Statement → NativePredicate
  | .None => .None
  | .ValueOf _ _ => .ValueOf
  | .Equal _ _ => .Equal
  | .NotEqual _ _ => .NotEqual
  | .Gt _ _ => .Gt
  | .Lt _ _ => .Lt
  | .Contains _ _ => .Contains
  | .NotContains _ _ => .NotContains
  | .SumOf _ _ _ => .SumOf
  | .ProductOf _ _ _ => .ProductOf
  | .MaxOf _ _ _ => .MaxOf

/-- `Statement::args`. -/
def Statement.args : Statement → List StatementArg
  | .None => []
  | .ValueOf ak v => [.Key ak, .Literal v]
  | .Equal a b => [.Key a, .Key b]
  | .NotEqual a b => [.Key a, .Key b]
  | .Gt a b => [.Key a, .Key b]
  | .Lt a b => [.Key a, .Key b]
  | .Contains a b => [.Key a, .Key b]
  | .NotContains a b => [.Key a, .Key b]
  | .SumOf a b c => [.Key a, .Key b, .Key c]
  | .ProductOf a b c => [.Key a, .Key b, .Key c]
  | .MaxOf a b c => [.Key a, .Key b, .Key c]

/-- `STATEMENT_ARG_F_LEN = 8`. -/
def STATEMENT_ARG_F_LEN : Nat := 8

/-- `impl ToFields for StatementArg`: always 8 field elements.
`None` is 8 zeroes, `Literal` is the 4 value limbs padded with 4
zeroes, `Key` is the 4 pod-id limbs followed by the 4 key limbs. -/
def StatementArg.toFields : StatementArg → List Nat × Nat
  | .None => (List.replicate STATEMENT_ARG_F_LEN 0, STATEMENT_ARG_F_LEN)
  | .Literal v => (v.fields ++ List.replicate 4 0, STATEMENT_ARG_F_LEN)
  | .Key ak => (ak.pod.id.fields ++ ak.key.fields, STATEMENT_ARG_F_LEN)

/-- `impl ToFields for Statement`: the predicate code followed by the
serialization of the statement's own arguments (one field element plus
8 per argument; no padding to `max_statement_args` happens here). -/
def Statement.toFields (s : Statement) : List Nat × Nat :=
  let cf := s.code.toFields
  let af := (s.args.map StatementArg.toFields).foldl
    (fun acc fl => (acc.1 ++ fl.1, acc.2 + fl.2)) ([], 0)
  (cf.1 ++ af.1, cf.2 + af.2)

/-- The `Params` record of configured bounds. -/
structure Params where
  max_input_signed_pods : Nat
  max_input_main_pods : Nat
  max_statements : Nat
  max_signed_pod_values : Nat
  max_public_statements : Nat
  max_statement_args : Nat
  max_operation_args : Nat
deriving DecidableEq, Repr

/-- `impl Default for Params`. -/
def Params.default : Params :=
  { max_input_signed_pods := 3
    max_input_main_pods := 3
    max_statements := 20
    max_signed_pod_values := 8
    max_public_statements := 10
    max_statement_args := 5
    max_operation_args := 5 }

/-! ## Operations and the deductive checker -/

/-- `impl Ord for Value`: lexicographic on canonical u64 limbs, most
significant limb first (the source iterates the zipped limbs in
reverse and returns at the first difference). -/
def Value.cmp (a b : Value) : Ordering :=
  if a.v3 < b.v3 then .lt else if b.v3 < a.v3 then .gt
  else if a.v2 < b.v2 then .lt else if b.v2 < a.v2 then .gt
  else if a.v1 < b.v1 then .lt else if b.v1 < a.v1 then .gt
  else if a.v0 < b.v0 then .lt else if b.v0 < a.v0 then .gt
  else .eq

/-- `v1 > v2` under `Value`'s ordering. -/
def Value.gt (a b : Value) : Bool := Value.cmp a b == .gt

/-- `v1 < v2` under `Value`'s ordering. -/
def Value.lt (a b : Value) : Bool := Value.cmp a b == .lt

/-- The `Operation` enum. -/
inductive Operation
  | None
  | NewEntry
  | CopyStatement (s : Statement)
  | EqualFromEntries (s1 s2 : Statement)
  | NotEqualFromEntries (s1 s2 : Statement)
  | GtFromEntries (s1 s2 : Statement)
  | LtFromEntries (s1 s2 : Statement)
  | TransitiveEqualFromStatements (s1 s2 : Statement)
  | GtToNotEqual (s : Statement)
  | LtToNotEqual (s : Statement)
  | ContainsFromEntries (s1 s2 : Statement)
  | NotContainsFromEntries (s1 s2 : Statement)
  | RenameContainedBy (s1 s2 : Statement)
  | SumOf (s1 s2 s3 : Statement)
  | ProductOf (s1 s2 s3 : Statement)
  | MaxOf (s1 s2 s3 : Statement)
deriving DecidableEq, Repr

/-- Rust wrapping i64 addition (the source adds two decoded `i64`s). -/
def wrapI64 (n : Int) : Int := ((n + 2 ^ 63) % 2 ^ 64) - 2 ^ 63

/-- `Operation::check`: the deductive checker.  The arms appear in
source order, ending with the catch-all `Invalid deduction` error
(the source formats the operation and statement into the message; we
keep the constant prefix).  Note that the source has *no* arm for
`ProductOf` or `MaxOf`: those always fall through to the catch-all. -/
def Operation.check (op : Operation) (out : Statement) : Except String Bool :=
  match op, out with
  | .None, .None => .ok true
  | .NewEntry, .ValueOf ak _ => .ok (ak.pod == SELF)
  | .CopyStatement s1, s2 => .ok (s1 == s2)
  | .EqualFromEntries (.ValueOf ak1 v1) (.ValueOf ak2 v2), .Equal ak3 ak4 =>
    .ok (v1 == v2 && ak3 == ak1 && ak4 == ak2)
  | .NotEqualFromEntries (.ValueOf ak1 v1) (.ValueOf ak2 v2), .NotEqual ak3 ak4 =>
    .ok (v1 != v2 && ak3 == ak1 && ak4 == ak2)
  | .GtFromEntries (.ValueOf ak1 v1) (.ValueOf ak2 v2), .Gt ak3 ak4 =>
    .ok (Value.gt v1 v2 && ak3 == ak1 && ak4 == ak2)
  | .LtFromEntries (.ValueOf ak1 v1) (.ValueOf ak2 v2), .Lt ak3 ak4 =>
    .ok (Value.lt v1 v2 && ak3 == ak1 && ak4 == ak2)
  | .ContainsFromEntries _ _, .Contains _ _ => .ok true
  | .NotContainsFromEntries _ _, .NotContains _ _ => .ok true
  | .TransitiveEqualFromStatements (.Equal ak1 ak2) (.Equal ak3 ak4), .Equal ak5 ak6 =>
    .ok (ak2 == ak3 && ak5 == ak1 && ak6 == ak4)
  | .GtToNotEqual (.Gt ak1 ak2), .NotEqual ak3 ak4 => .ok (ak1 == ak3 && ak2 == ak4)
  | .LtToNotEqual (.Lt ak1 ak2), .NotEqual ak3 ak4 => .ok (ak1 == ak3 && ak2 == ak4)
  | .RenameContainedBy (.Contains ak1 ak2) (.Equal ak3 ak4), .Contains ak5 ak6 =>
    .ok (ak1 == ak3 && ak4 == ak5 && ak2 == ak6)
  | .SumOf (.ValueOf ak1 v1) (.ValueOf ak2 v2) (.ValueOf ak3 v3), .SumOf ak4 ak5 ak6 => do
    let n1 ← tryIntoI64 v1
    let n2 ← tryIntoI64 v2
    let n3 ← tryIntoI64 v3
    .ok (n1 == wrapI64 (n2 + n3) && ak4 == ak1 && ak5 == ak2 && ak6 == ak3)
  | _, _ => .error "Invalid deduction"

/-! ## The `Pod` capability set and `NonePod` -/

/-- `Pod::kvs` (default trait method): extract the key-value pairs of
the `ValueOf` public statements.  The source filters on
`st.code() == ValueOf` and reads `args[0]`/`args[1]`, which for the
`Statement` enum are exactly the anchored key and the literal. -/
def podKvs (sts : List Statement) : List (AnchoredKey × Value) :=
  sts.filterMap fun st =>
    match st with
    | .ValueOf ak v => some (ak, v)
    | _ => none

/-- `impl Pod for NonePod`: `verify` always succeeds. -/
def NonePod.verify : Bool := true

/-- `impl Pod for NonePod`: the id is `PodId(NULL)`. -/
def NonePod.id : PodId := ⟨NULL⟩

/-- `impl Pod for NonePod`: no public statements. -/
def NonePod.pubStatements : List Statement := []

/-! ## Merkle tree (`primitives/merkletree_new.rs`) -/

/-- Decidable equality for `Except`, used to evaluate concrete runs of
the fallible operations in witnesses and counterexamples. -/
instance {ε α : Type} [DecidableEq ε] [DecidableEq α] : DecidableEq (Except ε α) :=
  fun a b =>
    match a, b with
    | .error x, .error y =>
      if h : x = y then .isTrue (by rw [h])
      else .isFalse (fun c => h (by injection c))
    | .ok x, .ok y =>
      if h : x = y then .isTrue (by rw [h])
      else .isFalse (fun c => h (by injection c))
    | .error _, .ok _ => .isFalse (fun c => Except.noConfusion c)
    | .ok _, .error _ => .isFalse (fun c => Except.noConfusion c)

/-- The 8 little-endian bytes of a `u64` limb.
Modelled from the spec: `Value::to_bytes` is not part of the sources
under `src/`; the spec fixes it as "the little-endian encoding of the
four u64 limbs". -/
def limbBytes (x : Nat) : List Nat :=
  (List.range 8).map (fun i => x / 256 ^ i % 256)

/-- `Value::to_bytes`: 32 bytes, little-endian within each limb, limbs
in order.  Modelled from the spec (see `limbBytes`). -/
def Value.toBytes (v : Value) : List Nat :=
  limbBytes v.v0 ++ limbBytes v.v1 ++ limbBytes v.v2 ++ limbBytes v.v3

/-- Bit `n` of a key: `bytes[n/8] & (1 << (n%8)) != 0`. -/
def bitAt (k : Value) (n : Nat) : Bool :=
  (k.toBytes.getD (n / 8) 0) &&& (1 <<< (n % 8)) != 0

/-- The first `maxDepth` bits of a key's path. -/
def pathBits (maxDepth : Nat) (k : Value) : List Bool :=
  (List.range maxDepth).map (bitAt k)

/-- `keypath`: fails when `max_depth > 8 * bytes.len() = 256`. -/
def keypath (maxDepth : Nat) (k : Value) : Except String (List Bool) :=
  if 8 * 32 < maxDepth then .error "key too short for the max_depth"
  else .ok (pathBits maxDepth k)

/-- A `Leaf` node: its key path, key, and value (the source also
caches the hash; we recompute hashes instead of caching them). -/
structure LeafData where
  path : List Bool
  key : Value
  value : Value
deriving DecidableEq, Repr

/-- The `Node` enum: empty, leaf, or intermediate with two children
(hash caches dropped; see `LeafData`). -/
inductive Node
  | none
  | leaf (l : LeafData)
  | inter (left right : Node)
deriving DecidableEq, Repr

/-- `Node::is_empty`. -/
def Node.isEmpty : Node → Bool
  | .none => true
  | .leaf _ => false
  | .inter _ _ => false

/-- Is the node an intermediate node? -/
def Node.isInter : Node → Bool
  | .inter _ _ => true
  | _ => false

/-- `hash_leaf(k, v)`: Poseidon over the 8 limbs `[k₀..k₃, v₀..v₃]`. -/
def hashLeaf (h : List Nat → Hash) (k v : Value) : Hash :=
  h (k.fields ++ v.fields)

/-- `hash_nodes(l, r)`: Poseidon over the 8 limbs `[l₀..l₃, r₀..r₃]`. -/
def hashNodes (h : List Nat → Hash) (a b : Hash) : Hash :=
  h (a.fields ++ b.fields)

/-- `Node::compute_hash`/`Node::hash`: `NULL` for an empty node and
for an intermediate with two empty children, `hash_leaf` for a leaf,
`hash_nodes` of the children otherwise. -/
def Node.hash (h : List Nat → Hash) : Node → Hash
  | .none => NULL
  | .leaf l => hashLeaf h l.key l.value
  | .inter left right =>
    if left.isEmpty && right.isEmpty then NULL
    else hashNodes h (left.hash h) (right.hash h)

/-- `Node::down_till_divergence`: push the colliding old and new leaf
down a chain of fresh intermediates until their paths diverge; at the
divergence level the new leaf goes right iff its path bit is true. -/
def downTillDivergence (maxDepth : Nat) (oldLeaf newLeaf : LeafData) (lvl : Nat) :
    Except String Node :=
  if h : maxDepth ≤ lvl then .error "max depth reached"
  else if oldLeaf.path.getD lvl false ≠ newLeaf.path.getD lvl false then
    if newLeaf.path.getD lvl false then
      .ok (.inter (.leaf oldLeaf) (.leaf newLeaf))
    else
      .ok (.inter (.leaf newLeaf) (.leaf oldLeaf))
  else if newLeaf.path.getD lvl false then
    (downTillDivergence maxDepth oldLeaf newLeaf (lvl + 1)).map
      (fun s => .inter .none s)
  else
    (downTillDivergence maxDepth oldLeaf newLeaf (lvl + 1)).map
      (fun s => .inter s .none)
termination_by maxDepth - lvl
decreasing_by all_goals omega

/-- `Node::add_leaf`: insert a leaf without recomputing hashes.  The
`lvl ≥ max_depth` check happens before matching on the node, so it is
repeated in every arm here. -/
def addLeaf (maxDepth : Nat) : Node → Nat → LeafData → Except String Node
  | .inter left right, lvl, lf =>
    if maxDepth ≤ lvl then .error "max depth reached"
    else if lf.path.getD lvl false then
      if right.isEmpty then .ok (.inter left (.leaf lf))
      else (addLeaf maxDepth right (lvl + 1) lf).map (fun r => .inter left r)
    else
      if left.isEmpty then .ok (.inter (.leaf lf) right)
      else (addLeaf maxDepth left (lvl + 1) lf).map (fun l => .inter l right)
  | .leaf l0, lvl, lf =>
    if maxDepth ≤ lvl then .error "max depth reached"
    else if l0.key = lf.key then .error "key already exists"
    else downTillDivergence maxDepth l0 lf lvl
  | .none, lvl, _ =>
    if maxDepth ≤ lvl then .error "max depth reached"
    else .error "reached empty node, should not have entered"

/-- `Node::down`: descend along the key path, collecting the sibling
hashes.  The source threads an optional mutable vector and pushes the
sibling before recursing; returning the list of deeper siblings and
consing the current one yields the same `Ok` results. -/
def Node.down (h : List Nat → Hash) (maxDepth : Nat) :
    Node → Nat → List Bool → Except String (Value × List Hash)
  | .inter left right, lvl, path =>
    if maxDepth ≤ lvl then .error "max depth reached"
    else if path.getD lvl false then
      (Node.down h maxDepth right (lvl + 1) path).map
        (fun r => (r.1, left.hash h :: r.2))
    else
      (Node.down h maxDepth left (lvl + 1) path).map
        (fun r => (r.1, right.hash h :: r.2))
  | .leaf l, lvl, _ =>
    if maxDepth ≤ lvl then .error "max depth reached"
    else .ok (l.value, [])
  | .none, lvl, _ =>
    if maxDepth ≤ lvl then .error "max depth reached"
    else .error "leaf not found"

/-- `Leaf::new`: compute the key path (this is where `keypath`'s
`max_depth ≤ 256` check happens). -/
def mkLeaf (maxDepth : Nat) (k v : Value) : Except String LeafData :=
  (keypath maxDepth k).map (fun p => ⟨p, k, v⟩)

/-- The `MerkleTree` struct (hash caches dropped). -/
structure MerkleTree where
  maxDepth : Nat
  root : Node
deriving DecidableEq, Repr

/-- `MerkleTree::new`: fold the key-values into an empty intermediate
root.  The Rust code iterates a `HashMap`; the iteration order is made
explicit by taking a list. -/
def MerkleTree.new (maxDepth : Nat) (kvs : List (Value × Value)) :
    Except String MerkleTree := do
  let root ← kvs.foldlM
    (fun n kv => do
      let lf ← mkLeaf maxDepth kv.1 kv.2
      addLeaf maxDepth n 0 lf)
    (Node.inter .none .none)
  .ok ⟨maxDepth, root⟩

/-- `MerkleTree::root`. -/
def MerkleTree.rootHash (h : List Nat → Hash) (t : MerkleTree) : Hash :=
  t.root.hash h

/-- The `MerkleProof` struct. -/
structure MerkleProof where
  existence : Bool
  siblings : List Hash
deriving DecidableEq, Repr

/-- `MerkleTree::prove`. -/
def MerkleTree.prove (h : List Nat → Hash) (t : MerkleTree) (k : Value) :
    Except String (Value × MerkleProof) := do
  let path ← keypath t.maxDepth k
  let r ← Node.down h t.maxDepth t.root 0 path
  .ok (r.1, ⟨true, r.2⟩)

/-- `MerkleTree::verify`: reject oversized proofs, recompute the root
from `hash_leaf(k, v)` by folding the siblings deepest-first with the
path bit selecting the order, and compare with the root. -/
def MerkleTree.verify (h : List Nat → Hash) (maxDepth : Nat) (root : Hash)
    (proof : MerkleProof) (k v : Value) : Except String Unit :=
  if maxDepth ≤ proof.siblings.length then .error "max depth reached"
  else do
    let path ← keypath maxDepth k
    let hh := (proof.siblings.enum.reverse).foldl
      (fun acc is =>
        if path.getD is.1 false then hashNodes h is.2 acc
        else hashNodes h acc is.2)
      (hashLeaf h k v)
    if hh = root then .ok () else .error "proof of inclusion does not verify"

/-- A non-existence proof: the siblings along the descent plus, in the
mismatched-leaf case, the other leaf's key and value.
Modelled from the spec: `prove_nonexistence`/`verify_nonexistence` are
`todo!()` in the source and its `MerkleProof` struct has no field for
the other leaf yet. -/
structure NonExistenceProof where
  siblings : List Hash
  other : Option (Value × Value)
deriving DecidableEq, Repr

/-- Modelled from the spec: descend by the key path; the descent
terminates either at an empty child (case a) or at a leaf whose key
differs from the query (case b, carrying that leaf's key and value).
`prove_nonexistence` is `todo!()` in the source. -/
def proveNonexistenceAux (h : List Nat → Hash) (k : Value) :
    Node → Nat → Except String NonExistenceProof
  | .inter left right, lvl =>
    if bitAt k lvl then
      (proveNonexistenceAux h k right (lvl + 1)).map
        (fun p => ⟨left.hash h :: p.siblings, p.other⟩)
    else
      (proveNonexistenceAux h k left (lvl + 1)).map
        (fun p => ⟨right.hash h :: p.siblings, p.other⟩)
  | .leaf l0, _ =>
    if l0.key = k then .error "key already exists"
    else .ok ⟨[], some (l0.key, l0.value)⟩
  | .none, _ => .ok ⟨[], none⟩

/-- Modelled from the spec: `MerkleTree::prove_nonexistence`. -/
def MerkleTree.prove_nonexistence (h : List Nat → Hash) (t : MerkleTree)
    (k : Value) : Except String NonExistenceProof :=
  proveNonexistenceAux h k t.root 0

/-- Modelled from the spec: `MerkleTree::verify_nonexistence`
recomputes the root from `NULL` (case a) or from
`hash_leaf(k', v')` (case b), additionally checking `k' ≠ k` and that
the key paths of `k` and `k'` agree on the first `d` bits. -/
def MerkleTree.verify_nonexistence (h : List Nat → Hash) (root : Hash)
    (proof : NonExistenceProof) (k : Value) : Except String Unit := do
  let d := proof.siblings.length
  let start ← match proof.other with
    | Option.none => Except.ok NULL
    | Option.some kv =>
      if kv.1 = k then Except.error "proof of non-inclusion does not verify"
      else if (List.range d).all (fun i => bitAt kv.1 i == bitAt k i) then
        Except.ok (hashLeaf h kv.1 kv.2)
      else Except.error "proof of non-inclusion does not verify"
  let hh := (proof.siblings.enum.reverse).foldl
    (fun acc is =>
      if bitAt k is.1 then hashNodes h is.2 acc
      else hashNodes h acc is.2)
    start
  if hh = root then .ok () else .error "proof of non-inclusion does not verify"

/-! ## Proof infrastructure for the Merkle tree -/

/-- The key-value pairs stored in the leaves of a node, left to right. -/
def Node.leaves : Node → List (Value × Value)
  | .none => []
  | .leaf l => [(l.key, l.value)]
  | .inter left right => left.leaves ++ right.leaves

/-- Well-formedness of a node sitting at depth `lvl`: every leaf
stores the path of its key (and a valid `max_depth`); the leaves of
the left (right) child of an intermediate have path bit `lvl` false
(true); and every intermediate child holds at least two leaves. -/
def wfN (maxDepth : Nat) : Node → Nat → Prop
  | .none, _ => True
  | .leaf l, _ => l.path = pathBits maxDepth l.key ∧ maxDepth ≤ 256
  | .inter left right, lvl =>
    wfN maxDepth left (lvl + 1) ∧ wfN maxDepth right (lvl + 1) ∧
    (∀ p ∈ left.leaves, bitAt p.1 lvl = false) ∧
    (∀ p ∈ right.leaves, bitAt p.1 lvl = true) ∧
    (left.isInter = true → 2 ≤ left.leaves.length) ∧
    (right.isInter = true → 2 ≤ right.leaves.length)

/-- Two keys' paths diverge at some bit index strictly below
`maxDepth - 1`. -/
def divBelow (maxDepth : Nat) (k k2 : Value) : Prop :=
  ∃ i, i + 1 < maxDepth ∧ bitAt k i ≠ bitAt k2 i

/-- Recompute a hash from a start value and a top-down sibling list,
combining deepest-first with an index-dependent combiner. -/
def rebuildF (f : Nat → Hash → Hash → Hash) (start : Hash) :
    List Hash → Nat → Hash
  | [], _ => start
  | s :: rest, lvl => f lvl s (rebuildF f start rest (lvl + 1))

/-- The combiner used by verification: the path bit of `k` at the
given level selects the order of the sibling and the running hash. -/
def combineK (h : List Nat → Hash) (k : Value) : Nat → Hash → Hash → Hash :=
  fun lvl s inner => if bitAt k lvl then hashNodes h s inner else hashNodes h inner s

/-- The start hash of a non-existence verification: `NULL` for the
empty-child case, `hash_leaf(k', v')` for the mismatched-leaf case. -/
def neStart (h : List Nat → Hash) (pf : NonExistenceProof) : Hash :=
  match pf.other with
  | Option.none => NULL
  | Option.some kv => hashLeaf h kv.1 kv.2

/-- A concrete stand-in hash function used to evaluate witnesses and
counterexamples on concrete inputs. -/
def cHash : List Nat → Hash :=
  fun l => ⟨l.length, l.foldl (fun a b => a + b) 0, 0, 0⟩

/-! ## MainPod layout (`backends/mock_main.rs`) -/

/-- The mock backend's statement: a predicate code together with an
argument vector (`Statement(NativeStatement, Vec<StatementArg>)`). -/
def MStatement : Type := NativePredicate × List StatementArg

instance : DecidableEq MStatement := by
  unfold MStatement
  infer_instance

/-- A pod as seen by the layout engine: only its public statements are
consulted (`pod.pub_statements()`). -/
structure MPod where
  pubStatements : List MStatement

instance : DecidableEq MPod := by
  have : DecidableEq (List MStatement) := inferInstance
  exact fun a b =>
    match a, b with
    | ⟨x⟩, ⟨y⟩ =>
      if h : x = y then .isTrue (by rw [h])
      else .isFalse (fun c => h (by cases c; rfl))

/-- Modelled from the spec: `NoneSignedPod`/`NoneMainPod` (not under
`src/`) are padding pods contributing no public statements, so a
missing input pod fills its whole row with `None` statements. -/
def noneMPod : MPod := ⟨[]⟩

/-- The inputs consulted by `layout_statements`: input signed pods,
input main pods, and this pod's own statements with their public
flags (the source reads `s.1` of each input statement pair). -/
structure LayoutInputs where
  signedPods : List MPod
  mainPods : List MPod
  statements : List (Bool × MStatement)

/-- `fill_pad`: pad a vector with a value up to a length, panicking
(modelled as `none`) when the vector is already longer. -/
def fillPad {α : Type} (v : List α) (pad : α) (len : Nat) : Option (List α) :=
  if len < v.length then Option.none
  else some (v ++ List.replicate (len - v.length) pad)

/-- `MockMainPod::pad_statement_args`. -/
def padStatementArgs (params : Params) (args : List StatementArg) :
    Option (List StatementArg) :=
  fillPad args .None params.max_statement_args

/-- `MockMainPod::statement_none`: a `None` statement with a fully
padded argument vector. -/
def statementNone (params : Params) : MStatement :=
  (.None, List.replicate params.max_statement_args .None)

/-- Pad one statement's arguments (the in-place
`pad_statement_args(params, &mut st.1)` of the source). -/
def padStatement (params : Params) (st : MStatement) : Option MStatement :=
  (padStatementArgs params st.2).map (fun a => (st.1, a))

/-- Total description of successful padding: append `None` arguments
up to `max_statement_args`. -/
def padArgsTotal (params : Params) (st : MStatement) : MStatement :=
  (st.1, st.2 ++ List.replicate (params.max_statement_args - st.2.length) .None)

/-- `MockMainPod::layout_statements`: one flat statement vector with
the signed-pod region, the main-pod region, then the local region,
each slot padded.  A `fill_pad` panic is modelled as `none`. -/
def layout_statements (params : Params) (inputs : LayoutInputs) :
    Option (List MStatement) := do
  let stN := statementNone params
  let sigRegion ← (List.range params.max_input_signed_pods).mapM (fun i =>
    (List.range params.max_signed_pod_values).mapM (fun j =>
      padStatement params
        (((inputs.signedPods.getD i noneMPod).pubStatements).getD j stN)))
  let mainRegion ← (List.range params.max_input_main_pods).mapM (fun i =>
    (List.range params.max_public_statements).mapM (fun j =>
      padStatement params
        (((inputs.mainPods.getD i noneMPod).pubStatements).getD j stN)))
  let localRegion ← (List.range params.max_statements).mapM (fun i =>
    padStatement params (((inputs.statements.get? i).map Prod.snd).getD stN))
  some (sigRegion.flatten ++ mainRegion.flatten ++ localRegion)

/-! ## Basic lemmas -/

theorem except_map_ok {α β : Type} {e : Except String α} {f : α → β} {b : β} :
    Except.map f e = .ok b ↔ ∃ a, e = .ok a ∧ f a = b := by
  cases e <;> simp [Except.map]

theorem except_bind_ok {α β : Type} {e : Except String α} {g : α → Except String β} {b : β} :
    (e >>= g) = .ok b ↔ ∃ a, e = .ok a ∧ g a = .ok b := by
  cases e <;> simp [Bind.bind, Except.bind]

theorem leaves_of_isEmpty {n : Node} (h : n.isEmpty = true) : n.leaves = [] := by
  cases n <;> simp_all [Node.isEmpty, Node.leaves]

theorem node_eq_none_of_isEmpty {n : Node} (h : n.isEmpty = true) : n = .none := by
  cases n <;> simp_all [Node.isEmpty]

theorem isEmpty_of_leaves_nil {n : Node}
    (hI : n.isInter = true → 2 ≤ n.leaves.length) (h : n.leaves = []) :
    n.isEmpty = true := by
  cases n with
  | none => rfl
  | leaf l => simp [Node.leaves] at h
  | inter a b =>
    simp only [Node.isInter, forall_const] at hI
    rw [h] at hI
    simp at hI

theorem hash_inter_of_leaves_ne {h : List Nat → Hash} {l r : Node}
    (hne : (Node.inter l r).leaves ≠ []) :
    (Node.inter l r).hash h = hashNodes h (l.hash h) (r.hash h) := by
  rw [Node.hash]
  rw [if_neg]
  intro hc
  rw [Bool.and_eq_true] at hc
  exact hne (by simp [Node.leaves, leaves_of_isEmpty hc.1, leaves_of_isEmpty hc.2])

theorem pathBits_getD {maxD : Nat} {k : Value} {i : Nat} (h : i < maxD) :
    (pathBits maxD k).getD i false = bitAt k i := by
  unfold pathBits
  rw [List.getD_eq_getElem?_getD, List.getElem?_map, List.getElem?_range h]
  rfl

theorem wf_maxDepth_le {maxD : Nat} :
    ∀ {n : Node} {lvl : Nat}, wfN maxD n lvl → n.leaves ≠ [] → maxD ≤ 256 := by
  intro n
  induction n with
  | none => intro lvl _ hne; simp [Node.leaves] at hne
  | leaf l => intro lvl hw _; exact hw.2
  | inter a b iha ihb =>
    intro lvl hw hne
    rcases hw with ⟨hwa, hwb, -⟩
    by_cases ha : a.leaves = []
    · exact ihb hwb (fun hb => hne (by simp [Node.leaves, ha, hb]))
    · exact iha hwa ha

theorem pairwise_companion {α : Type} {R : α → α → Prop} :
    ∀ {l : List α} {a : α}, l.Pairwise R → a ∈ l → 2 ≤ l.length →
      ∃ b, b ∈ l ∧ (R a b ∨ R b a) := by
  intro l
  induction l with
  | nil => intro a _ ha; simp at ha
  | cons x xs ih =>
    intro a hp ha hlen
    rcases List.mem_cons.mp ha with rfl | ha
    · match xs, hlen with
      | y :: ys, _ =>
        exact ⟨y, by simp, Or.inl ((List.pairwise_cons.mp hp).1 y (by simp))⟩
    · exact ⟨x, by simp, Or.inr ((List.pairwise_cons.mp hp).1 a ha)⟩

theorem pairwise_two_mem {α : Type} {R : α → α → Prop} {l : List α}
    (hp : l.Pairwise R) (hlen : 2 ≤ l.length) :
    ∃ x y, x ∈ l ∧ y ∈ l ∧ R x y := by
  match l, hp, hlen with
  | x :: y :: rest, hp, _ =>
    exact ⟨x, y, by simp, by simp,
      (List.pairwise_cons.mp hp).1 y (by simp)⟩

theorem foldl_enum_rebuild (f : Nat → Hash → Hash → Hash) (start : Hash) :
    ∀ (sibs : List Hash) (off : Nat),
      ((List.enumFrom off sibs).reverse).foldl (fun acc is => f is.1 is.2 acc) start
        = rebuildF f start sibs off := by
  intro sibs
  induction sibs with
  | nil => intro off; rfl
  | cons s rest ih =>
    intro off
    show ((((off, s) :: List.enumFrom (off + 1) rest)).reverse).foldl
      (fun acc is => f is.1 is.2 acc) start = _
    rw [List.reverse_cons, List.foldl_append, ih]
    rfl

theorem rebuildF_congr {f g : Nat → Hash → Hash → Hash} {start : Hash} :
    ∀ {sibs : List Hash} {off : Nat},
      (∀ i, off ≤ i → i < off + sibs.length → ∀ a b, f i a b = g i a b) →
      rebuildF f start sibs off = rebuildF g start sibs off := by
  intro sibs
  induction sibs with
  | nil => intro off _; rfl
  | cons s rest ih =>
    intro off hfg
    show f off s _ = g off s _
    rw [hfg off le_rfl (by simp), ih]
    intro i hi1 hi2 a b
    exact hfg i (by omega) (by simp; omega) a b

/-- Specification of `down_till_divergence`: on success it returns an
intermediate chain holding exactly the two pushed-down leaves, and the
chain is well-formed at its level. -/
theorem dtd_spec {maxD : Nat} {old nw : LeafData}
    (hop : old.path = pathBits maxD old.key)
    (hnp : nw.path = pathBits maxD nw.key)
    (h256 : maxD ≤ 256)
    (lvl : Nat) (m : Node)
    (hm : downTillDivergence maxD old nw lvl = .ok m) :
    m.leaves.Perm [(old.key, old.value), (nw.key, nw.value)] ∧
    m.isInter = true ∧ wfN maxD m lvl := by
  rw [downTillDivergence] at hm
  by_cases hd : maxD ≤ lvl
  · rw [dif_pos hd] at hm
    exact absurd hm (by simp)
  · rw [dif_neg hd] at hm
    have hlt : lvl < maxD := by omega
    have hogd : old.path.getD lvl false = bitAt old.key lvl := by
      rw [hop, pathBits_getD hlt]
    have hngd : nw.path.getD lvl false = bitAt nw.key lvl := by
      rw [hnp, pathBits_getD hlt]
    split_ifs at hm with hdiv hbit hbit
    · -- divergence, new leaf goes right
      cases hm
      refine ⟨List.Perm.refl _, rfl, ?_⟩
      refine ⟨⟨hop, h256⟩, ⟨hnp, h256⟩, ?_, ?_, by simp [Node.isInter], by simp [Node.isInter]⟩
      · intro p hp
        simp only [Node.leaves, List.mem_singleton] at hp
        subst hp
        have : ¬ (bitAt old.key lvl = true) := by
          rw [← hogd, ← hngd] at *
          intro hc
          exact hdiv (by rw [hc, hbit])
        simpa using this
      · intro p hp
        simp only [Node.leaves, List.mem_singleton] at hp
        subst hp
        simpa [← hngd] using hbit
    · -- divergence, new leaf goes left
      cases hm
      refine ⟨List.Perm.swap _ _ _, rfl, ?_⟩
      refine ⟨⟨hnp, h256⟩, ⟨hop, h256⟩, ?_, ?_, by simp [Node.isInter], by simp [Node.isInter]⟩
      · intro p hp
        simp only [Node.leaves, List.mem_singleton] at hp
        subst hp
        simpa [← hngd] using hbit
      · intro p hp
        simp only [Node.leaves, List.mem_singleton] at hp
        subst hp
        have hnb : nw.path.getD lvl false = false := by
          revert hbit; cases nw.path.getD lvl false <;> simp
        have hob : old.path.getD lvl false = true := by
          revert hdiv; rw [hnb]; cases old.path.getD lvl false <;> simp
        simpa [← hogd] using hob
    · -- no divergence yet, descend right
      rw [except_map_ok] at hm
      obtain ⟨s, hs, rfl⟩ := hm
      obtain ⟨hperm, hint, hwf⟩ := dtd_spec hop hnp h256 (lvl + 1) s hs
      push_neg at hdiv
      refine ⟨by simpa [Node.leaves] using hperm, rfl, ?_⟩
      refine ⟨trivial, hwf, by simp [Node.leaves], ?_, by simp [Node.isInter], ?_⟩
      · intro p hp
        have hp2 := hperm.mem_iff.mp hp
        have hob : bitAt old.key lvl = true := by rw [← hogd, hdiv]; exact hbit
        have hnb : bitAt nw.key lvl = true := by rw [← hngd]; exact hbit
        simp only [List.mem_cons, List.mem_singleton, List.not_mem_nil, or_false] at hp2
        rcases hp2 with h1 | h1
        · rw [h1]; exact hob
        · rw [h1]; exact hnb
      · intro hi
        rw [hperm.length_eq]
        simp
    · -- no divergence yet, descend left
      rw [except_map_ok] at hm
      obtain ⟨s, hs, rfl⟩ := hm
      obtain ⟨hperm, hint, hwf⟩ := dtd_spec hop hnp h256 (lvl + 1) s hs
      push_neg at hdiv
      refine ⟨by simpa [Node.leaves] using hperm, rfl, ?_⟩
      refine ⟨hwf, trivial, ?_, by simp [Node.leaves], ?_, by simp [Node.isInter]⟩
      · intro p hp
        have hp2 := hperm.mem_iff.mp hp
        have hnb : bitAt nw.key lvl = false := by
          rw [← hngd]
          revert hbit; cases nw.path.getD lvl false <;> simp
        have hob : bitAt old.key lvl = false := by rw [← hogd, hdiv, hngd]; exact hnb
        simp only [List.mem_cons, List.mem_singleton, List.not_mem_nil, or_false] at hp2
        rcases hp2 with h1 | h1
        · rw [h1]; exact hob
        · rw [h1]; exact hnb
      · intro hi
        rw [hperm.length_eq]
        simp
termination_by maxD - lvl
decreasing_by all_goals omega

/-- Specification of `add_leaf`: on success the new tree holds the new
leaf on top of the old leaves, well-formedness is preserved, and the
result is an intermediate node. -/
theorem addLeaf_spec {maxD : Nat} {lf : LeafData}
    (hlp : lf.path = pathBits maxD lf.key) (h256 : maxD ≤ 256) :
    ∀ {n : Node} {lvl : Nat} {n2 : Node},
      addLeaf maxD n lvl lf = .ok n2 → wfN maxD n lvl →
      n2.leaves.Perm ((lf.key, lf.value) :: n.leaves) ∧
      wfN maxD n2 lvl ∧ n2.isInter = true := by
  intro n
  induction n with
  | none =>
    intro lvl n2 hm _
    simp only [addLeaf] at hm
    split_ifs at hm
  | leaf l0 =>
    intro lvl n2 hm hw
    simp only [addLeaf] at hm
    split_ifs at hm with h1 h2
    obtain ⟨hperm, hint, hwf⟩ := dtd_spec hw.1 hlp h256 lvl n2 hm
    refine ⟨hperm.trans ?_, hwf, hint⟩
    exact List.Perm.swap _ _ _
  | inter a b iha ihb =>
    intro lvl n2 hm hw
    simp only [wfN] at hw
    obtain ⟨hwa, hwb, hba, hbb, hia, hib⟩ := hw
    simp only [addLeaf] at hm
    have hlvl : ¬ maxD ≤ lvl → lvl < maxD := by omega
    split_ifs at hm with h1 hbit hemp hemp
    · -- new leaf goes right, right child empty
      rw [Except.ok.injEq] at hm
      subst hm
      have hb0 := node_eq_none_of_isEmpty hemp
      subst hb0
      have hbitk : bitAt lf.key lvl = true := by
        rw [hlp, pathBits_getD (hlvl h1)] at hbit
        exact hbit
      refine ⟨?_, ?_, rfl⟩
      · simp only [Node.leaves, List.append_nil]
        exact List.perm_append_singleton _ _
      · refine ⟨hwa, ⟨hlp, h256⟩, hba, ?_, hia, by simp [Node.isInter]⟩
        intro p hp
        simp only [Node.leaves, List.mem_singleton] at hp
        rw [hp]
        exact hbitk
    · -- new leaf goes right, recurse into right child
      rw [except_map_ok] at hm
      obtain ⟨r, hr, rfl⟩ := hm
      obtain ⟨permb, wfb, intb⟩ := ihb hr hwb
      have hbitk : bitAt lf.key lvl = true := by
        rw [hlp, pathBits_getD (hlvl h1)] at hbit
        exact hbit
      refine ⟨?_, ?_, rfl⟩
      · simp only [Node.leaves]
        exact ((List.Perm.append_left a.leaves permb).trans List.perm_middle).symm.symm
      · refine ⟨hwa, wfb, hba, ?_, hia, ?_⟩
        · intro p hp
          have hp2 := permb.mem_iff.mp hp
          rcases List.mem_cons.mp hp2 with h2 | h2
          · rw [h2]; exact hbitk
          · exact hbb p h2
        · intro _
          rw [permb.length_eq]
          have : b.leaves ≠ [] := fun hc => hemp (isEmpty_of_leaves_nil hib hc)
          cases hcb : b.leaves with
          | nil => exact absurd hcb this
          | cons x xs => simp
    · -- new leaf goes left, left child empty
      rw [Except.ok.injEq] at hm
      subst hm
      have ha0 := node_eq_none_of_isEmpty hemp
      subst ha0
      have hbitk : bitAt lf.key lvl = false := by
        rw [hlp, pathBits_getD (hlvl h1)] at hbit
        revert hbit; cases bitAt lf.key lvl <;> simp
      refine ⟨?_, ?_, rfl⟩
      · simp [Node.leaves]
      · refine ⟨⟨hlp, h256⟩, hwb, ?_, hbb, by simp [Node.isInter], hib⟩
        intro p hp
        simp only [Node.leaves, List.mem_singleton] at hp
        rw [hp]
        exact hbitk
    · -- new leaf goes left, recurse into left child
      rw [except_map_ok] at hm
      obtain ⟨r, hr, rfl⟩ := hm
      obtain ⟨perma, wfa, inta⟩ := iha hr hwa
      have hbitk : bitAt lf.key lvl = false := by
        rw [hlp, pathBits_getD (hlvl h1)] at hbit
        revert hbit; cases bitAt lf.key lvl <;> simp
      refine ⟨?_, ?_, rfl⟩
      · simp only [Node.leaves]
        exact (perma.append_right b.leaves)
      · refine ⟨wfa, hwb, ?_, hbb, ?_, hib⟩
        · intro p hp
          have hp2 := perma.mem_iff.mp hp
          rcases List.mem_cons.mp hp2 with h2 | h2
          · rw [h2]; exact hbitk
          · exact hba p h2
        · intro _
          rw [perma.length_eq]
          have : a.leaves ≠ [] := by
            intro hc
            exact hemp (isEmpty_of_leaves_nil hia hc)
          cases hca : a.leaves with
          | nil => exact absurd hca this
          | cons x xs => simp

theorem mkLeaf_ok {maxD : Nat} {k v : Value} {lf : LeafData}
    (hm : mkLeaf maxD k v = .ok lf) :
    lf = ⟨pathBits maxD k, k, v⟩ ∧ maxD ≤ 256 := by
  rw [mkLeaf, keypath] at hm
  split_ifs at hm with h
  · simp [Except.map] at hm
  · simp only [Except.map, Except.ok.injEq] at hm
    exact ⟨hm.symm, by omega⟩

/-- Specification of the building fold of `MerkleTree::new`. -/
theorem build_fold_spec {maxD : Nat} :
    ∀ (kvs : List (Value × Value)) (n r : Node),
      kvs.foldlM
        (fun n kv => do
          let lf ← mkLeaf maxD kv.1 kv.2
          addLeaf maxD n 0 lf) n = .ok r →
      wfN maxD n 0 →
      r.leaves.Perm (kvs ++ n.leaves) ∧ wfN maxD r 0 ∧
        (n.isInter = true → r.isInter = true) := by
  intro kvs
  induction kvs with
  | nil =>
    intro n r hm hw
    rw [List.foldlM_nil] at hm
    have hnr : n = r := by
      simpa [pure, Except.pure] using hm
    subst hnr
    exact ⟨by simp, hw, fun hi => hi⟩
  | cons kv rest ih =>
    intro n r hm hw
    rw [List.foldlM_cons] at hm
    rw [except_bind_ok] at hm
    obtain ⟨n1, h1, hrest⟩ := hm
    rw [except_bind_ok] at h1
    obtain ⟨lf, hlf, hadd⟩ := h1
    obtain ⟨hlf_eq, h256⟩ := mkLeaf_ok hlf
    subst hlf_eq
    obtain ⟨permA, wfA, intA⟩ := addLeaf_spec rfl h256 hadd hw
    obtain ⟨permR, wfR, intR⟩ := ih n1 r hrest wfA
    refine ⟨?_, wfR, fun _ => intR intA⟩
    have p2 : List.Perm (rest ++ n1.leaves) ((kv.1, kv.2) :: (rest ++ n.leaves)) :=
      (List.Perm.append_left rest permA).trans List.perm_middle
    exact permR.trans p2

/-- Specification of `MerkleTree::new`: the built tree stores exactly
the inserted pairs, is well-formed, and has an intermediate root. -/
theorem new_spec {maxD : Nat} {kvs : List (Value × Value)} {t : MerkleTree}
    (hb : MerkleTree.new maxD kvs = .ok t) :
    t.maxDepth = maxD ∧ t.root.leaves.Perm kvs ∧ wfN maxD t.root 0 ∧
      t.root.isInter = true := by
  rw [MerkleTree.new] at hb
  rw [except_bind_ok] at hb
  obtain ⟨root, hroot, hok⟩ := hb
  rw [Except.ok.injEq] at hok
  subst hok
  have hw0 : wfN maxD (Node.inter .none .none) 0 := by
    refine ⟨trivial, trivial, ?_, ?_, ?_, ?_⟩ <;> simp [Node.leaves, Node.isInter]
  obtain ⟨perm, wf, int⟩ := build_fold_spec kvs _ root hroot hw0
  exact ⟨rfl, by simpa [Node.leaves] using perm, wf, int rfl⟩

/-- The master descent lemma: in a well-formed tree whose keys are
pairwise divergent strictly below `maxDepth - 1`, `down` along the key
path of a stored key finds its leaf, the collected siblings stay below
the depth bound, and refolding them from `hash_leaf` recomputes the
node hash. -/
theorem down_finds (h : List Nat → Hash) {maxD : Nat} {k v : Value} :
    ∀ {n : Node} {lvl : Nat},
      wfN maxD n lvl →
      (k, v) ∈ n.leaves →
      n.leaves.Pairwise (fun p q => divBelow maxD p.1 q.1) →
      (∀ p ∈ n.leaves, ∀ j, j < lvl → bitAt p.1 j = bitAt k j) →
      2 ≤ maxD →
      lvl < maxD →
      (n.isInter = true → (lvl = 0 ∨ 2 ≤ n.leaves.length)) →
      ∃ sibs,
        Node.down h maxD n lvl (pathBits maxD k) = .ok (v, sibs) ∧
        lvl + sibs.length < maxD ∧
        rebuildF (combineK h k) (hashLeaf h k v) sibs lvl = n.hash h := by
  intro n
  induction n with
  | none =>
    intro lvl _ hmem
    simp [Node.leaves] at hmem
  | leaf l =>
    intro lvl hw hmem hpw hctx h2 hlvl hdisj
    simp only [Node.leaves, List.mem_singleton] at hmem
    have hk1 : k = l.key := congrArg Prod.fst hmem
    have hv1 : v = l.value := congrArg Prod.snd hmem
    refine ⟨[], ?_, by simp only [List.length_nil]; omega, ?_⟩
    · simp only [Node.down]
      rw [if_neg (by omega)]
      rw [hv1]
    · simp only [rebuildF, Node.hash]
      rw [hk1, hv1]
  | inter a b iha ihb =>
    intro lvl hw hmem hpw hctx h2 hlvl hdisj
    simp only [wfN] at hw
    obtain ⟨hwa, hwb, hba, hbb, hia, hib⟩ := hw
    simp only [Node.leaves] at hmem hpw hctx hdisj ⊢
    have hne : (Node.inter a b).leaves ≠ [] := List.ne_nil_of_mem hmem
    rcases List.mem_append.mp hmem with hma | hmb
    · -- the key lives in the left subtree
      have hkb : bitAt k lvl = false := hba (k, v) hma
      have egd : (pathBits maxD k).getD lvl false = false := by
        rw [pathBits_getD hlvl]; exact hkb
      -- bound for the child level
      have hlvl1 : lvl + 1 < maxD := by
        by_cases hai : a.isInter = true
        · -- a holds at least two leaves sharing bits up to lvl
          have hlen := hia hai
          have hpwa : a.leaves.Pairwise (fun p q => divBelow maxD p.1 q.1) :=
            hpw.sublist (List.sublist_append_left _ _)
          obtain ⟨x, y, hx, hy, hxy⟩ := pairwise_two_mem hpwa hlen
          obtain ⟨i, hi, hnei⟩ := hxy
          have hag : ∀ j, j ≤ lvl → bitAt x.1 j = bitAt y.1 j := by
            intro j hj
            rcases Nat.lt_or_ge j lvl with hjl | hjl
            · rw [hctx x (List.mem_append.mpr (Or.inl hx)) j hjl,
                hctx y (List.mem_append.mpr (Or.inl hy)) j hjl]
            · have hje : j = lvl := by omega
              subst hje
              rw [hba x hx, hba y hy]
          have : ¬ i ≤ lvl := fun hc => hnei (hag i hc)
          omega
        · -- a is a leaf (it contains the key), use a companion in the
          -- whole node or the root case
          rcases hdisj rfl with h0 | hlen
          · omega
          · obtain ⟨q, hqm, hq⟩ :=
              pairwise_companion hpw (List.mem_append.mpr (Or.inl hma)) hlen
            have hdiv2 : ∃ i, i + 1 < maxD ∧ bitAt k i ≠ bitAt q.1 i := by
              rcases hq with hq | hq
              · exact hq
              · obtain ⟨i, hi, hnei⟩ := hq
                exact ⟨i, hi, fun c => hnei c.symm⟩
            obtain ⟨i, hi, hnei⟩ := hdiv2
            have : ¬ i < lvl := fun hc => hnei ((hctx q hqm i hc).symm)
            omega
      -- recurse / inline on the left child
      have hctx1 : ∀ p ∈ a.leaves, ∀ j, j < lvl + 1 → bitAt p.1 j = bitAt k j := by
        intro p hp j hj
        rcases Nat.lt_or_ge j lvl with hjl | hjl
        · exact hctx p (List.mem_append.mpr (Or.inl hp)) j hjl
        · have hje : j = lvl := by omega
          subst hje
          rw [hba p hp, hkb]
      have hpwa : a.leaves.Pairwise (fun p q => divBelow maxD p.1 q.1) :=
        hpw.sublist (List.sublist_append_left _ _)
      have hdisj1 : a.isInter = true → (lvl + 1 = 0 ∨ 2 ≤ a.leaves.length) :=
        fun hai => Or.inr (hia hai)
      obtain ⟨sibs, hdown, hbound, hreb⟩ :=
        iha hwa hma hpwa hctx1 h2 hlvl1 hdisj1
      refine ⟨b.hash h :: sibs, ?_, by simp only [List.length_cons]; omega, ?_⟩
      · simp only [Node.down]
        rw [if_neg (show ¬ maxD ≤ lvl by omega), egd, if_neg Bool.false_ne_true, hdown]
        rfl
      · simp only [rebuildF, combineK, hkb, hreb]
        rw [if_neg Bool.false_ne_true, hash_inter_of_leaves_ne hne]
    · -- the key lives in the right subtree
      have hkb : bitAt k lvl = true := hbb (k, v) hmb
      have egd : (pathBits maxD k).getD lvl false = true := by
        rw [pathBits_getD hlvl]; exact hkb
      have hlvl1 : lvl + 1 < maxD := by
        by_cases hbint : b.isInter = true
        · have hlen := hib hbint
          have hpwb : b.leaves.Pairwise (fun p q => divBelow maxD p.1 q.1) :=
            hpw.sublist (List.sublist_append_right _ _)
          obtain ⟨x, y, hx, hy, hxy⟩ := pairwise_two_mem hpwb hlen
          obtain ⟨i, hi, hnei⟩ := hxy
          have hag : ∀ j, j ≤ lvl → bitAt x.1 j = bitAt y.1 j := by
            intro j hj
            rcases Nat.lt_or_ge j lvl with hjl | hjl
            · rw [hctx x (List.mem_append.mpr (Or.inr hx)) j hjl,
                hctx y (List.mem_append.mpr (Or.inr hy)) j hjl]
            · have hje : j = lvl := by omega
              subst hje
              rw [hbb x hx, hbb y hy]
          have : ¬ i ≤ lvl := fun hc => hnei (hag i hc)
          omega
        · rcases hdisj rfl with h0 | hlen
          · omega
          · obtain ⟨q, hqm, hq⟩ :=
              pairwise_companion hpw (List.mem_append.mpr (Or.inr hmb)) hlen
            have hdiv2 : ∃ i, i + 1 < maxD ∧ bitAt k i ≠ bitAt q.1 i := by
              rcases hq with hq | hq
              · exact hq
              · obtain ⟨i, hi, hnei⟩ := hq
                exact ⟨i, hi, fun c => hnei c.symm⟩
            obtain ⟨i, hi, hnei⟩ := hdiv2
            have : ¬ i < lvl := fun hc => hnei ((hctx q hqm i hc).symm)
            omega
      have hctx1 : ∀ p ∈ b.leaves, ∀ j, j < lvl + 1 → bitAt p.1 j = bitAt k j := by
        intro p hp j hj
        rcases Nat.lt_or_ge j lvl with hjl | hjl
        · exact hctx p (List.mem_append.mpr (Or.inr hp)) j hjl
        · have hje : j = lvl := by omega
          subst hje
          rw [hbb p hp, hkb]
      have hpwb : b.leaves.Pairwise (fun p q => divBelow maxD p.1 q.1) :=
        hpw.sublist (List.sublist_append_right _ _)
      have hdisj1 : b.isInter = true → (lvl + 1 = 0 ∨ 2 ≤ b.leaves.length) :=
        fun hbi => Or.inr (hib hbi)
      obtain ⟨sibs, hdown, hbound, hreb⟩ :=
        ihb hwb hmb hpwb hctx1 h2 hlvl1 hdisj1
      refine ⟨a.hash h :: sibs, ?_, by simp only [List.length_cons]; omega, ?_⟩
      · simp only [Node.down]
        rw [if_neg (show ¬ maxD ≤ lvl by omega), egd, if_pos rfl, hdown]
        rfl
      · simp only [rebuildF, combineK, hkb, hreb]
        rw [if_pos trivial, hash_inter_of_leaves_ne hne]

theorem ok_bind {α β : Type} (a : α) (f : α → Except String β) :
    (Except.ok a >>= f) = f a := rfl

/-- If refolding the siblings reproduces the root and the proof is
short enough, `MerkleTree::verify` accepts. -/
theorem verify_ok (h : List Nat → Hash) {maxD : Nat} {root : Hash}
    {sibs : List Hash} {k v : Value} {ex : Bool}
    (hlen : sibs.length < maxD) (h256 : maxD ≤ 256)
    (hreb : rebuildF (combineK h k) (hashLeaf h k v) sibs 0 = root) :
    MerkleTree.verify h maxD root ⟨ex, sibs⟩ k v = .ok () := by
  have hnle : ¬ maxD ≤ sibs.length := by omega
  have hkp : keypath maxD k = .ok (pathBits maxD k) := by
    rw [keypath, if_neg (by omega)]
  have hconv :
      rebuildF
        (fun i s inner =>
          if (pathBits maxD k).getD i false then hashNodes h s inner
          else hashNodes h inner s)
        (hashLeaf h k v) sibs 0 = root := by
    rw [← hreb]
    exact rebuildF_congr (fun i h0 hib a b => by
      rw [pathBits_getD (by omega)]
      rfl)
  simp only [MerkleTree.verify, hnle, if_false, hkp, ok_bind]
  have hfe :
      List.foldl
        (fun acc (is : Nat × Hash) =>
          if (pathBits maxD k).getD is.1 false then hashNodes h is.2 acc
          else hashNodes h acc is.2)
        (hashLeaf h k v) sibs.enum.reverse = root :=
    (foldl_enum_rebuild
      (fun i s inner =>
        if (pathBits maxD k).getD i false then hashNodes h s inner
        else hashNodes h inner s)
      (hashLeaf h k v) sibs 0).trans hconv
  rw [if_pos hfe]

/-- C1 (amended): the Merkle existence round-trip holds for every
tree built with `max_depth ≥ 2` from pairwise key-divergence below
`max_depth - 1` (the original, unconditional claim fails at the depth
boundary, see the counterexample below): for every `(k,v)` in the
build input, `prove` returns `v` with a proof that `verify` accepts
against the root. -/
theorem merkle_roundtrip_existence (h : List Nat → Hash) {maxD : Nat}
    {kvs : List (Value × Value)} {t : MerkleTree}
    (hb : MerkleTree.new maxD kvs = .ok t)
    (h2 : 2 ≤ maxD)
    (hdiv : kvs.Pairwise (fun p q => divBelow maxD p.1 q.1)) :
    ∀ k v, (k, v) ∈ kvs →
      ∃ pf : MerkleProof,
        t.prove h k = .ok (v, pf) ∧
        MerkleTree.verify h maxD (t.rootHash h) pf k v = .ok () := by
  intro k v hkv
  obtain ⟨hmd, hperm, hwf, hint⟩ := new_spec hb
  have hmem : (k, v) ∈ t.root.leaves := hperm.mem_iff.mpr hkv
  have hsymm : Symmetric (fun p q : Value × Value => divBelow maxD p.1 q.1) := by
    intro p q hpq
    obtain ⟨i, hi, hne⟩ := hpq
    exact ⟨i, hi, fun c => hne c.symm⟩
  have hpw : t.root.leaves.Pairwise (fun p q => divBelow maxD p.1 q.1) :=
    (hperm.pairwise_iff (fun hpq => hsymm hpq)).mpr hdiv
  have h256 : maxD ≤ 256 := wf_maxDepth_le hwf (List.ne_nil_of_mem hmem)
  obtain ⟨sibs, hdown, hbound, hreb⟩ :=
    down_finds h hwf hmem hpw
      (fun p _ j hj => absurd hj (Nat.not_lt_zero j))
      h2 (by omega) (fun _ => Or.inl rfl)
  have hkp : keypath maxD k = .ok (pathBits maxD k) := by
    rw [keypath, if_neg (by omega)]
  refine ⟨⟨true, sibs⟩, ?_, ?_⟩
  · simp only [MerkleTree.prove, hmd, hkp, ok_bind, hdown]
  · exact verify_ok h (by omega) h256 hreb

/-- C1 counterexample: with `max_depth = 1` and the single key `0`,
`MerkleTree::new` succeeds (placing the leaf at depth 1) but `prove`
fails with `max depth reached`, so the unconditional round-trip claim
is false. -/
theorem merkle_roundtrip_existence_cex :
    MerkleTree.new 1 [(EMPTY, EMPTY)]
      = .ok ⟨1, Node.inter (Node.leaf ⟨[false], EMPTY, EMPTY⟩) Node.none⟩ ∧
    MerkleTree.prove cHash
      ⟨1, Node.inter (Node.leaf ⟨[false], EMPTY, EMPTY⟩) Node.none⟩ EMPTY
      = .error "max depth reached" := by
  exact ⟨rfl, rfl⟩

/-- C1 witness: the amended round-trip evaluated on a concrete tree
(`max_depth = 2`, one key) with a concrete hash function. -/
theorem merkle_roundtrip_existence_witness :
    MerkleTree.new 2 [(EMPTY, Value.mk 7 0 0 0)]
      = .ok ⟨2, Node.inter (Node.leaf ⟨[false, false], EMPTY, ⟨7, 0, 0, 0⟩⟩) Node.none⟩ ∧
    2 ≤ 2 ∧
    List.Pairwise (fun p q => divBelow 2 p.1 q.1) [(EMPTY, Value.mk 7 0 0 0)] ∧
    (∃ pf : MerkleProof,
      MerkleTree.prove cHash
        ⟨2, Node.inter (Node.leaf ⟨[false, false], EMPTY, ⟨7, 0, 0, 0⟩⟩) Node.none⟩ EMPTY
        = .ok (⟨7, 0, 0, 0⟩, pf) ∧
      MerkleTree.verify cHash 2
        (MerkleTree.rootHash cHash
          ⟨2, Node.inter (Node.leaf ⟨[false, false], EMPTY, ⟨7, 0, 0, 0⟩⟩) Node.none⟩)
        pf EMPTY ⟨7, 0, 0, 0⟩ = .ok ()) :=
  ⟨rfl, le_rfl, by simp,
    @merkle_roundtrip_existence cHash 2 [(EMPTY, Value.mk 7 0 0 0)]
      ⟨2, Node.inter (Node.leaf ⟨[false, false], EMPTY, ⟨7, 0, 0, 0⟩⟩) Node.none⟩
      rfl le_rfl (by simp) EMPTY ⟨7, 0, 0, 0⟩ (by simp)⟩

/-- Master lemma for non-existence: in a well-formed tree that does
not contain the key, the descent produces a proof whose start hash
refolds to the node hash, and in the mismatched-leaf case the other
key differs from the query and agrees with it on all consumed bits. -/
theorem ne_finds (h : List Nat → Hash) {maxD : Nat} {k : Value} :
    ∀ {n : Node} {lvl : Nat},
      wfN maxD n lvl →
      (∀ p ∈ n.leaves, p.1 ≠ k) →
      (∀ p ∈ n.leaves, ∀ j, j < lvl → bitAt p.1 j = bitAt k j) →
      (n.isInter = true → n.leaves ≠ []) →
      ∃ pf : NonExistenceProof,
        proveNonexistenceAux h k n lvl = .ok pf ∧
        rebuildF (combineK h k) (neStart h pf) pf.siblings lvl = n.hash h ∧
        ∀ kv, pf.other = some kv →
          kv.1 ≠ k ∧ ∀ i, i < lvl + pf.siblings.length → bitAt kv.1 i = bitAt k i := by
  intro n
  induction n with
  | none =>
    intro lvl _ _ _ _
    refine ⟨⟨[], Option.none⟩, rfl, rfl, ?_⟩
    intro kv hkv
    exact absurd hkv (by simp)
  | leaf l =>
    intro lvl hw hkne hctx _
    have hlk : l.key ≠ k := hkne (l.key, l.value) (by simp [Node.leaves])
    refine ⟨⟨[], some (l.key, l.value)⟩, ?_, rfl, ?_⟩
    · simp only [proveNonexistenceAux, if_neg hlk]
    · intro kv hkv
      simp only [Option.some.injEq] at hkv
      subst hkv
      refine ⟨hlk, ?_⟩
      intro i hi
      simp only [List.length_nil, Nat.add_zero] at hi
      exact hctx (l.key, l.value) (by simp [Node.leaves]) i hi
  | inter a b iha ihb =>
    intro lvl hw hkne hctx hne2
    simp only [wfN] at hw
    obtain ⟨hwa, hwb, hba, hbb, hia, hib⟩ := hw
    have hnel : (Node.inter a b).leaves ≠ [] := hne2 rfl
    cases hbk : bitAt k lvl with
    | true =>
      have hknb : ∀ p ∈ b.leaves, p.1 ≠ k :=
        fun p hp => hkne p (List.mem_append.mpr (Or.inr hp))
      have hctx1 : ∀ p ∈ b.leaves, ∀ j, j < lvl + 1 → bitAt p.1 j = bitAt k j := by
        intro p hp j hj
        rcases Nat.lt_or_ge j lvl with hjl | hjl
        · exact hctx p (List.mem_append.mpr (Or.inr hp)) j hjl
        · have hje : j = lvl := by omega
          subst hje
          rw [hbb p hp, hbk]
      have hneb : b.isInter = true → b.leaves ≠ [] := by
        intro hbi hc
        have := hib hbi
        rw [hc] at this
        simp at this
      obtain ⟨pf, hpf, hreb, hoth⟩ := ihb hwb hknb hctx1 hneb
      obtain ⟨sibs0, oth0⟩ := pf
      refine ⟨⟨a.hash h :: sibs0, oth0⟩, ?_, ?_, ?_⟩
      · simp only [proveNonexistenceAux, hbk]
        rw [if_pos trivial, hpf]
        rfl
      · simp only [rebuildF, combineK, hbk, neStart] at hreb ⊢
        rw [if_pos trivial, hreb, hash_inter_of_leaves_ne hnel]
      · intro kv hkv
        obtain ⟨hkvne, hag⟩ := hoth kv hkv
        refine ⟨hkvne, ?_⟩
        intro i hi
        simp only [List.length_cons] at hi
        exact hag i (by simp only [List.length_cons]; omega)
    | false =>
      have hkna : ∀ p ∈ a.leaves, p.1 ≠ k :=
        fun p hp => hkne p (List.mem_append.mpr (Or.inl hp))
      have hctx1 : ∀ p ∈ a.leaves, ∀ j, j < lvl + 1 → bitAt p.1 j = bitAt k j := by
        intro p hp j hj
        rcases Nat.lt_or_ge j lvl with hjl | hjl
        · exact hctx p (List.mem_append.mpr (Or.inl hp)) j hjl
        · have hje : j = lvl := by omega
          subst hje
          rw [hba p hp, hbk]
      have hnea : a.isInter = true → a.leaves ≠ [] := by
        intro hai hc
        have := hia hai
        rw [hc] at this
        simp at this
      obtain ⟨pf, hpf, hreb, hoth⟩ := iha hwa hkna hctx1 hnea
      obtain ⟨sibs0, oth0⟩ := pf
      refine ⟨⟨b.hash h :: sibs0, oth0⟩, ?_, ?_, ?_⟩
      · simp only [proveNonexistenceAux, hbk]
        rw [if_neg Bool.false_ne_true, hpf]
        rfl
      · simp only [rebuildF, combineK, hbk, neStart] at hreb ⊢
        rw [if_neg Bool.false_ne_true, hreb, hash_inter_of_leaves_ne hnel]
      · intro kv hkv
        obtain ⟨hkvne, hag⟩ := hoth kv hkv
        refine ⟨hkvne, ?_⟩
        intro i hi
        simp only [List.length_cons] at hi
        exact hag i (by simp only [List.length_cons]; omega)

/-- C2 (amended, spec-modelled): for every tree built from a
*nonempty* `kvs` and every key not among the inserted keys, the
modelled `prove_nonexistence` returns a proof that the modelled
`verify_nonexistence` accepts against the root.  (The unconditional
claim fails on the empty tree, whose root hashes to `NULL` by special
case; see the counterexample.) -/
theorem merkle_roundtrip_nonexistence (h : List Nat → Hash) {maxD : Nat}
    {kvs : List (Value × Value)} {t : MerkleTree}
    (hb : MerkleTree.new maxD kvs = .ok t)
    (hne : kvs ≠ [])
    (k : Value) (hk : ∀ p ∈ kvs, p.1 ≠ k) :
    ∃ pf : NonExistenceProof,
      t.prove_nonexistence h k = .ok pf ∧
      MerkleTree.verify_nonexistence h (t.rootHash h) pf k = .ok () := by
  obtain ⟨hmd, hperm, hwf, hint⟩ := new_spec hb
  have hkne : ∀ p ∈ t.root.leaves, p.1 ≠ k :=
    fun p hp => hk p (hperm.mem_iff.mp hp)
  have hnel : t.root.leaves ≠ [] := by
    intro hc
    exact hne ((hc ▸ hperm).symm.eq_nil)
  obtain ⟨pf, hpf, hreb, hoth⟩ :=
    ne_finds h hwf hkne (fun p _ j hj => absurd hj (Nat.not_lt_zero j))
      (fun _ => hnel)
  refine ⟨pf, hpf, ?_⟩
  obtain ⟨sibs, oth⟩ := pf
  cases oth with
  | none =>
    simp only [MerkleTree.verify_nonexistence, ok_bind]
    have hfe :
        List.foldl
          (fun acc (is : Nat × Hash) =>
            if bitAt k is.1 then hashNodes h is.2 acc
            else hashNodes h acc is.2)
          NULL sibs.enum.reverse = t.rootHash h :=
      (foldl_enum_rebuild (combineK h k) NULL sibs 0).trans hreb
    rw [if_pos hfe]
  | some kv =>
    obtain ⟨hkvne, hag⟩ := hoth kv rfl
    have hall :
        (List.range sibs.length).all (fun i => bitAt kv.1 i == bitAt k i) = true := by
      rw [List.all_eq_true]
      intro i hi
      rw [List.mem_range] at hi
      simp only [beq_iff_eq]
      exact hag i (by simp only [Nat.zero_add]; simpa using hi)
    simp only [MerkleTree.verify_nonexistence, if_neg hkvne, hall, if_true, ok_bind]
    have hfe :
        List.foldl
          (fun acc (is : Nat × Hash) =>
            if bitAt k is.1 then hashNodes h is.2 acc
            else hashNodes h acc is.2)
          (hashLeaf h kv.1 kv.2) sibs.enum.reverse = t.rootHash h :=
      (foldl_enum_rebuild (combineK h k) (hashLeaf h kv.1 kv.2) sibs 0).trans hreb
    rw [if_pos hfe]

/-- C2 counterexample (spec-modelled): on the tree built from the
empty map the non-existence round-trip fails: the root is `NULL` (the
empty-children special case of `compute_hash`) but verification
refolds one `NULL` sibling through the hash function. -/
theorem merkle_roundtrip_nonexistence_cex :
    MerkleTree.new 32 ([] : List (Value × Value))
      = .ok ⟨32, Node.inter Node.none Node.none⟩ ∧
    MerkleTree.prove_nonexistence cHash ⟨32, Node.inter Node.none Node.none⟩ EMPTY
      = .ok ⟨[NULL], Option.none⟩ ∧
    MerkleTree.verify_nonexistence cHash
      (MerkleTree.rootHash cHash ⟨32, Node.inter Node.none Node.none⟩)
      ⟨[NULL], Option.none⟩ EMPTY
      = .error "proof of non-inclusion does not verify" :=
  ⟨rfl, rfl, rfl⟩

/-- C2 witness: the amended non-existence round-trip evaluated on a
concrete one-leaf tree and a concrete absent key. -/
theorem merkle_roundtrip_nonexistence_witness :
    MerkleTree.new 2 [(EMPTY, Value.mk 7 0 0 0)]
      = .ok ⟨2, Node.inter (Node.leaf ⟨[false, false], EMPTY, ⟨7, 0, 0, 0⟩⟩) Node.none⟩ ∧
    ([(EMPTY, Value.mk 7 0 0 0)] ≠ []) ∧
    (∀ p ∈ [(EMPTY, Value.mk 7 0 0 0)], p.1 ≠ Value.mk 1 0 0 0) ∧
    ∃ pf : NonExistenceProof,
      MerkleTree.prove_nonexistence cHash
        ⟨2, Node.inter (Node.leaf ⟨[false, false], EMPTY, ⟨7, 0, 0, 0⟩⟩) Node.none⟩
        (Value.mk 1 0 0 0) = .ok pf ∧
      MerkleTree.verify_nonexistence cHash
        (MerkleTree.rootHash cHash
          ⟨2, Node.inter (Node.leaf ⟨[false, false], EMPTY, ⟨7, 0, 0, 0⟩⟩) Node.none⟩)
        pf (Value.mk 1 0 0 0) = .ok () :=
  ⟨rfl, by simp, by decide,
    @merkle_roundtrip_nonexistence cHash 2 [(EMPTY, Value.mk 7 0 0 0)]
      ⟨2, Node.inter (Node.leaf ⟨[false, false], EMPTY, ⟨7, 0, 0, 0⟩⟩) Node.none⟩
      rfl (by simp) (Value.mk 1 0 0 0) (by decide)⟩

/-- If the concatenations of two bit-partitioned leaf lists are
permutations, then so are the two sides separately. -/
theorem perm_children_split {L1 R1 L2 R2 : List (Value × Value)} {lvl : Nat}
    (hL1 : ∀ p ∈ L1, bitAt p.1 lvl = false) (hR1 : ∀ p ∈ R1, bitAt p.1 lvl = true)
    (hL2 : ∀ p ∈ L2, bitAt p.1 lvl = false) (hR2 : ∀ p ∈ R2, bitAt p.1 lvl = true)
    (hperm : (L1 ++ R1).Perm (L2 ++ R2)) :
    L1.Perm L2 ∧ R1.Perm R2 := by
  constructor
  · have hf := hperm.filter (fun p => !(bitAt p.1 lvl))
    rw [List.filter_append, List.filter_append] at hf
    have e1 : L1.filter (fun p => !(bitAt p.1 lvl)) = L1 :=
      List.filter_eq_self.mpr (fun a ha => by rw [hL1 a ha]; rfl)
    have e2 : R1.filter (fun p => !(bitAt p.1 lvl)) = [] :=
      List.filter_eq_nil_iff.mpr (fun a ha => by rw [hR1 a ha]; simp)
    have e3 : L2.filter (fun p => !(bitAt p.1 lvl)) = L2 :=
      List.filter_eq_self.mpr (fun a ha => by rw [hL2 a ha]; rfl)
    have e4 : R2.filter (fun p => !(bitAt p.1 lvl)) = [] :=
      List.filter_eq_nil_iff.mpr (fun a ha => by rw [hR2 a ha]; simp)
    rw [e1, e2, e3, e4] at hf
    simpa using hf
  · have hf := hperm.filter (fun p => bitAt p.1 lvl)
    rw [List.filter_append, List.filter_append] at hf
    have e1 : L1.filter (fun p => bitAt p.1 lvl) = [] :=
      List.filter_eq_nil_iff.mpr (fun a ha => by rw [hL1 a ha]; simp)
    have e2 : R1.filter (fun p => bitAt p.1 lvl) = R1 :=
      List.filter_eq_self.mpr (fun a ha => hR1 a ha)
    have e3 : L2.filter (fun p => bitAt p.1 lvl) = [] :=
      List.filter_eq_nil_iff.mpr (fun a ha => by rw [hL2 a ha]; simp)
    have e4 : R2.filter (fun p => bitAt p.1 lvl) = R2 :=
      List.filter_eq_self.mpr (fun a ha => hR2 a ha)
    rw [e1, e2, e3, e4] at hf
    simpa using hf

/-- Well-formed nodes at the same level with the same leaf multiset
are equal (children version: intermediates hold at least two leaves). -/
theorem wf_unique {maxD : Nat} :
    ∀ (n1 : Node) {n2 : Node} {lvl : Nat},
      wfN maxD n1 lvl → wfN maxD n2 lvl →
      n1.leaves.Perm n2.leaves →
      (n1.isInter = true → 2 ≤ n1.leaves.length) →
      (n2.isInter = true → 2 ≤ n2.leaves.length) →
      n1 = n2 := by
  intro n1
  induction n1 with
  | none =>
    intro n2 lvl hw1 hw2 hperm hc1 hc2
    have h2e : n2.leaves = [] := hperm.symm.eq_nil
    exact (node_eq_none_of_isEmpty (isEmpty_of_leaves_nil hc2 h2e)).symm
  | leaf l =>
    intro n2 lvl hw1 hw2 hperm hc1 hc2
    cases n2 with
    | none => simpa [Node.leaves] using hperm.length_eq
    | leaf l2 =>
      simp only [Node.leaves] at hperm
      have hkv := List.singleton_perm_singleton.mp hperm
      have hk : l.key = l2.key := congrArg Prod.fst hkv
      have hv : l.value = l2.value := congrArg Prod.snd hkv
      have hp : l.path = l2.path := by rw [hw1.1, hw2.1, hk]
      cases l
      cases l2
      simp_all
    | inter a2 b2 =>
      have h2 := hc2 rfl
      rw [← hperm.length_eq] at h2
      simp [Node.leaves] at h2
  | inter a b iha ihb =>
    intro n2 lvl hw1 hw2 hperm hc1 hc2
    cases n2 with
    | none =>
      have h1 := hc1 rfl
      rw [hperm.length_eq] at h1
      simp [Node.leaves] at h1
    | leaf l2 =>
      have h1 := hc1 rfl
      rw [hperm.length_eq] at h1
      simp [Node.leaves] at h1
    | inter a2 b2 =>
      simp only [wfN] at hw1 hw2
      obtain ⟨hwa, hwb, hba, hbb, hia, hib⟩ := hw1
      obtain ⟨hwa2, hwb2, hba2, hbb2, hia2, hib2⟩ := hw2
      simp only [Node.leaves] at hperm
      obtain ⟨hpl, hpr⟩ := perm_children_split hba hbb hba2 hbb2 hperm
      rw [iha hwa hwa2 hpl hia hia2, ihb hwb hwb2 hpr hib hib2]

/-- C3: build determinism.  Two insertion sequences with the same set
of key-value pairs (e.g. two iteration orders of the same map) that
both build successfully yield trees with equal roots: the root depends
only on the set, not on insertion order. -/
theorem merkle_build_deterministic (h : List Nat → Hash) {maxD : Nat}
    {l1 l2 : List (Value × Value)} {t1 t2 : MerkleTree}
    (hb1 : MerkleTree.new maxD l1 = .ok t1)
    (hb2 : MerkleTree.new maxD l2 = .ok t2)
    (hnd1 : l1.Nodup) (hnd2 : l2.Nodup)
    (hset : l1.toFinset = l2.toFinset) :
    t1.rootHash h = t2.rootHash h := by
  have hperm12 : l1.Perm l2 :=
    List.perm_of_nodup_nodup_toFinset_eq hnd1 hnd2 hset
  obtain ⟨hmd1, hperm1, hwf1, hint1⟩ := new_spec hb1
  obtain ⟨hmd2, hperm2, hwf2, hint2⟩ := new_spec hb2
  have hperm : t1.root.leaves.Perm t2.root.leaves :=
    hperm1.trans (hperm12.trans hperm2.symm)
  cases hr1 : t1.root with
  | none => rw [hr1] at hint1; simp [Node.isInter] at hint1
  | leaf l => rw [hr1] at hint1; simp [Node.isInter] at hint1
  | inter a b =>
    cases hr2 : t2.root with
    | none => rw [hr2] at hint2; simp [Node.isInter] at hint2
    | leaf l => rw [hr2] at hint2; simp [Node.isInter] at hint2
    | inter a2 b2 =>
      rw [hr1] at hperm hwf1
      rw [hr2] at hperm hwf2
      simp only [wfN] at hwf1 hwf2
      obtain ⟨hwa, hwb, hba, hbb, hia, hib⟩ := hwf1
      obtain ⟨hwa2, hwb2, hba2, hbb2, hia2, hib2⟩ := hwf2
      simp only [Node.leaves] at hperm
      obtain ⟨hpl, hpr⟩ := perm_children_split hba hbb hba2 hbb2 hperm
      rw [MerkleTree.rootHash, MerkleTree.rootHash, hr1, hr2,
        wf_unique a hwa hwa2 hpl hia hia2, wf_unique b hwb hwb2 hpr hib hib2]

/-- C3 witness: two insertion orders of the same two-entry map build
the same tree, evaluated concretely. -/
theorem merkle_build_deterministic_witness :
    MerkleTree.new 2 [(EMPTY, Value.mk 5 0 0 0), (Value.mk 1 0 0 0, Value.mk 6 0 0 0)]
      = .ok ⟨2, Node.inter (Node.leaf ⟨[false, false], EMPTY, ⟨5, 0, 0, 0⟩⟩)
          (Node.leaf ⟨[true, false], ⟨1, 0, 0, 0⟩, ⟨6, 0, 0, 0⟩⟩)⟩ ∧
    MerkleTree.new 2 [(Value.mk 1 0 0 0, Value.mk 6 0 0 0), (EMPTY, Value.mk 5 0 0 0)]
      = .ok ⟨2, Node.inter (Node.leaf ⟨[false, false], EMPTY, ⟨5, 0, 0, 0⟩⟩)
          (Node.leaf ⟨[true, false], ⟨1, 0, 0, 0⟩, ⟨6, 0, 0, 0⟩⟩)⟩ ∧
    [(EMPTY, Value.mk 5 0 0 0), (Value.mk 1 0 0 0, Value.mk 6 0 0 0)].Nodup ∧
    [(Value.mk 1 0 0 0, Value.mk 6 0 0 0), (EMPTY, Value.mk 5 0 0 0)].Nodup ∧
    [(EMPTY, Value.mk 5 0 0 0), (Value.mk 1 0 0 0, Value.mk 6 0 0 0)].toFinset
      = [(Value.mk 1 0 0 0, Value.mk 6 0 0 0), (EMPTY, Value.mk 5 0 0 0)].toFinset ∧
    MerkleTree.rootHash cHash
        ⟨2, Node.inter (Node.leaf ⟨[false, false], EMPTY, ⟨5, 0, 0, 0⟩⟩)
          (Node.leaf ⟨[true, false], ⟨1, 0, 0, 0⟩, ⟨6, 0, 0, 0⟩⟩)⟩
      = MerkleTree.rootHash cHash
        ⟨2, Node.inter (Node.leaf ⟨[false, false], EMPTY, ⟨5, 0, 0, 0⟩⟩)
          (Node.leaf ⟨[true, false], ⟨1, 0, 0, 0⟩, ⟨6, 0, 0, 0⟩⟩)⟩ :=
  ⟨rfl, rfl, by decide, by decide, by decide,
    @merkle_build_deterministic cHash 2
      [(EMPTY, Value.mk 5 0 0 0), (Value.mk 1 0 0 0, Value.mk 6 0 0 0)]
      [(Value.mk 1 0 0 0, Value.mk 6 0 0 0), (EMPTY, Value.mk 5 0 0 0)]
      ⟨2, Node.inter (Node.leaf ⟨[false, false], EMPTY, ⟨5, 0, 0, 0⟩⟩)
        (Node.leaf ⟨[true, false], ⟨1, 0, 0, 0⟩, ⟨6, 0, 0, 0⟩⟩)⟩
      ⟨2, Node.inter (Node.leaf ⟨[false, false], EMPTY, ⟨5, 0, 0, 0⟩⟩)
        (Node.leaf ⟨[true, false], ⟨1, 0, 0, 0⟩, ⟨6, 0, 0, 0⟩⟩)⟩
      rfl rfl (by decide) (by decide) (by decide)⟩

/-! ## Lemmas for the MainPod layout -/

theorem some_bind {α β : Type} (a : α) (f : α → Option β) :
    (some a >>= f) = f a := rfl

theorem getD_mem_list {α : Type} {l : List α} {i : Nat} (d : α) (hi : i < l.length) :
    l.getD i d ∈ l := by
  rw [List.getD_eq_getElem?_getD, List.getElem?_eq_getElem hi]
  exact List.getElem_mem hi

theorem mapM_option_eq_map {α β : Type} {f : α → Option β} {g : α → β} :
    ∀ {l : List α}, (∀ a ∈ l, f a = some (g a)) → l.mapM f = some (l.map g) := by
  intro l
  induction l with
  | nil => intro _; rfl
  | cons x xs ih =>
    intro hf
    rw [List.mapM_cons, hf x (by simp), ih (fun a ha => hf a (by simp [ha]))]
    rfl

theorem padStatement_ok {params : Params} {st : MStatement}
    (hlen : st.2.length ≤ params.max_statement_args) :
    padStatement params st = some (padArgsTotal params st) := by
  rw [padStatement, padStatementArgs, fillPad, if_neg (by omega)]
  rfl

theorem getD_range_map {α : Type} (F : Nat → α) (d : α) {n i : Nat} (hi : i < n) :
    ((List.range n).map F).getD i d = F i := by
  rw [List.getD_eq_getElem?_getD, List.getElem?_map, List.getElem?_range hi]
  rfl

theorem flatten_length_const {α : Type} :
    ∀ (ls : List (List α)) (m : Nat), (∀ l ∈ ls, l.length = m) →
      ls.flatten.length = ls.length * m := by
  intro ls
  induction ls with
  | nil => intro m _; simp
  | cons l rest ih =>
    intro m hlen
    rw [List.flatten_cons, List.length_append, hlen l (by simp),
      ih m (fun l2 hl2 => hlen l2 (by simp [hl2])), List.length_cons]
    ring

theorem flatten_getD_double {α : Type} (d : α) :
    ∀ (ls : List (List α)) (m i j : Nat),
      (∀ l ∈ ls, l.length = m) → i < ls.length → j < m →
      (ls.flatten).getD (i * m + j) d = (ls.getD i []).getD j d := by
  intro ls
  induction ls with
  | nil => intro m i j _ hi _; simp at hi
  | cons l rest ih =>
    intro m i j hlen hi hj
    cases i with
    | zero =>
      rw [List.flatten_cons, Nat.zero_mul, Nat.zero_add]
      rw [List.getD_append _ _ _ _ (by rw [hlen l (by simp)]; omega)]
      rfl
    | succ i2 =>
      rw [List.flatten_cons]
      have hl : l.length = m := hlen l (by simp)
      have hexp : (i2 + 1) * m = i2 * m + m := by ring
      rw [List.getD_append_right _ _ _ _ (by omega)]
      have harith : (i2 + 1) * m + j - l.length = i2 * m + j := by
        rw [hl]
        omega
      rw [harith, ih m i2 j (fun l2 hl2 => hlen l2 (by simp [hl2]))
        (by simp at hi; omega) hj]
      rfl

/-- C9 (amended): whenever every involved statement's argument list
fits in `max_statement_args` (otherwise `fill_pad` panics, see the
counterexample), `layout_statements` returns a flat vector of exactly
`max_input_signed_pods * max_signed_pod_values +
max_input_main_pods * max_public_statements + max_statements` slots:
first each input signed pod's public statements padded to
`max_signed_pod_values` slots (missing pods contributing all-`None`
rows), then each input main pod's public statements padded to
`max_public_statements` slots, then the local statements padded with
`None` to `max_statements` slots — every slot's arguments padded to
`max_statement_args`. -/
theorem layout_statements_spec (params : Params) (inputs : LayoutInputs)
    (hsig : ∀ pod ∈ inputs.signedPods, ∀ st ∈ pod.pubStatements,
      st.2.length ≤ params.max_statement_args)
    (hmain : ∀ pod ∈ inputs.mainPods, ∀ st ∈ pod.pubStatements,
      st.2.length ≤ params.max_statement_args)
    (hloc : ∀ s ∈ inputs.statements, s.2.2.length ≤ params.max_statement_args) :
    ∃ L : List MStatement,
      layout_statements params inputs = some L ∧
      L.length = params.max_input_signed_pods * params.max_signed_pod_values
        + params.max_input_main_pods * params.max_public_statements
        + params.max_statements ∧
      (∀ i j, i < params.max_input_signed_pods → j < params.max_signed_pod_values →
        L.getD (i * params.max_signed_pod_values + j) (statementNone params)
          = padArgsTotal params
              (((inputs.signedPods.getD i noneMPod).pubStatements).getD j
                (statementNone params))) ∧
      (∀ i j, i < params.max_input_main_pods → j < params.max_public_statements →
        L.getD (params.max_input_signed_pods * params.max_signed_pod_values
            + (i * params.max_public_statements + j)) (statementNone params)
          = padArgsTotal params
              (((inputs.mainPods.getD i noneMPod).pubStatements).getD j
                (statementNone params))) ∧
      (∀ i, i < params.max_statements →
        L.getD (params.max_input_signed_pods * params.max_signed_pod_values
            + params.max_input_main_pods * params.max_public_statements + i)
            (statementNone params)
          = padArgsTotal params
              (((inputs.statements.get? i).map Prod.snd).getD (statementNone params))) := by
  have hfit : ∀ (pods : List MPod),
      (∀ pod ∈ pods, ∀ st ∈ pod.pubStatements,
        st.2.length ≤ params.max_statement_args) →
      ∀ i j, (((pods.getD i noneMPod).pubStatements).getD j
        (statementNone params)).2.length ≤ params.max_statement_args := by
    intro pods hp i j
    by_cases hi : i < pods.length
    · by_cases hj : j < (pods.getD i noneMPod).pubStatements.length
      · exact hp _ (getD_mem_list _ hi) _ (getD_mem_list _ hj)
      · rw [List.getD_eq_default _ _ (by omega)]
        simp [statementNone]
    · have hd : pods.getD i noneMPod = noneMPod := List.getD_eq_default _ _ (by omega)
      rw [hd]
      simp [noneMPod, statementNone]
  have hfitloc : ∀ i,
      (((inputs.statements.get? i).map Prod.snd).getD
        (statementNone params)).2.length ≤ params.max_statement_args := by
    intro i
    cases hg : inputs.statements.get? i with
    | none => simp [statementNone]
    | some s => simpa using hloc s (List.get?_mem hg)
  have hsigrow :
      (List.range params.max_input_signed_pods).mapM (fun i =>
        (List.range params.max_signed_pod_values).mapM (fun j =>
          padStatement params
            (((inputs.signedPods.getD i noneMPod).pubStatements).getD j
              (statementNone params))))
      = some ((List.range params.max_input_signed_pods).map (fun i =>
          (List.range params.max_signed_pod_values).map (fun j =>
            padArgsTotal params
              (((inputs.signedPods.getD i noneMPod).pubStatements).getD j
                (statementNone params))))) :=
    mapM_option_eq_map (fun i _ =>
      mapM_option_eq_map (fun j _ =>
        padStatement_ok (hfit inputs.signedPods hsig i j)))
  have hmainrow :
      (List.range params.max_input_main_pods).mapM (fun i =>
        (List.range params.max_public_statements).mapM (fun j =>
          padStatement params
            (((inputs.mainPods.getD i noneMPod).pubStatements).getD j
              (statementNone params))))
      = some ((List.range params.max_input_main_pods).map (fun i =>
          (List.range params.max_public_statements).map (fun j =>
            padArgsTotal params
              (((inputs.mainPods.getD i noneMPod).pubStatements).getD j
                (statementNone params))))) :=
    mapM_option_eq_map (fun i _ =>
      mapM_option_eq_map (fun j _ =>
        padStatement_ok (hfit inputs.mainPods hmain i j)))
  have hlocrow :
      (List.range params.max_statements).mapM (fun i =>
        padStatement params
          (((inputs.statements.get? i).map Prod.snd).getD (statementNone params)))
      = some ((List.range params.max_statements).map (fun i =>
          padArgsTotal params
            (((inputs.statements.get? i).map Prod.snd).getD (statementNone params)))) :=
    mapM_option_eq_map (fun i _ => padStatement_ok (hfitloc i))
  have hsiglens : ∀ l ∈ (List.range params.max_input_signed_pods).map (fun i =>
      (List.range params.max_signed_pod_values).map (fun j =>
        padArgsTotal params
          (((inputs.signedPods.getD i noneMPod).pubStatements).getD j
            (statementNone params)))), l.length = params.max_signed_pod_values := by
    intro l hl
    obtain ⟨i, _, rfl⟩ := List.mem_map.mp hl
    simp
  have hmainlens : ∀ l ∈ (List.range params.max_input_main_pods).map (fun i =>
      (List.range params.max_public_statements).map (fun j =>
        padArgsTotal params
          (((inputs.mainPods.getD i noneMPod).pubStatements).getD j
            (statementNone params)))), l.length = params.max_public_statements := by
    intro l hl
    obtain ⟨i, _, rfl⟩ := List.mem_map.mp hl
    simp
  refine ⟨((List.range params.max_input_signed_pods).map (fun i =>
      (List.range params.max_signed_pod_values).map (fun j =>
        padArgsTotal params
          (((inputs.signedPods.getD i noneMPod).pubStatements).getD j
            (statementNone params))))).flatten
    ++ ((List.range params.max_input_main_pods).map (fun i =>
      (List.range params.max_public_statements).map (fun j =>
        padArgsTotal params
          (((inputs.mainPods.getD i noneMPod).pubStatements).getD j
            (statementNone params))))).flatten
    ++ (List.range params.max_statements).map (fun i =>
      padArgsTotal params
        (((inputs.statements.get? i).map Prod.snd).getD (statementNone params))),
    ?_, ?_, ?_, ?_, ?_⟩
  · rw [layout_statements]
    rw [hsigrow, some_bind, hmainrow, some_bind, hlocrow, some_bind]
  · rw [List.length_append, List.length_append,
      flatten_length_const _ _ hsiglens, flatten_length_const _ _ hmainlens]
    simp [Nat.add_assoc]
  · intro i j hi hj
    have hidx : i * params.max_signed_pod_values + j <
        ((List.range params.max_input_signed_pods).map (fun i =>
          (List.range params.max_signed_pod_values).map (fun j =>
            padArgsTotal params
              (((inputs.signedPods.getD i noneMPod).pubStatements).getD j
                (statementNone params))))).flatten.length := by
      rw [flatten_length_const _ _ hsiglens]
      simp only [List.length_map, List.length_range]
      have : i + 1 ≤ params.max_input_signed_pods := hi
      calc i * params.max_signed_pod_values + j
          < i * params.max_signed_pod_values + params.max_signed_pod_values := by omega
        _ = (i + 1) * params.max_signed_pod_values := by ring
        _ ≤ params.max_input_signed_pods * params.max_signed_pod_values :=
            Nat.mul_le_mul_right _ this
    rw [List.append_assoc, List.getD_append _ _ _ _ hidx]
    rw [flatten_getD_double _ _ _ _ _ hsiglens (by simpa using hi) hj]
    rw [getD_range_map _ _ hi, getD_range_map _ _ hj]
  · intro i j hi hj
    have hslen : ((List.range params.max_input_signed_pods).map (fun i =>
        (List.range params.max_signed_pod_values).map (fun j =>
          padArgsTotal params
            (((inputs.signedPods.getD i noneMPod).pubStatements).getD j
              (statementNone params))))).flatten.length
        = params.max_input_signed_pods * params.max_signed_pod_values := by
      rw [flatten_length_const _ _ hsiglens]
      simp
    have hidx2 : i * params.max_public_statements + j <
        ((List.range params.max_input_main_pods).map (fun i =>
          (List.range params.max_public_statements).map (fun j =>
            padArgsTotal params
              (((inputs.mainPods.getD i noneMPod).pubStatements).getD j
                (statementNone params))))).flatten.length := by
      rw [flatten_length_const _ _ hmainlens]
      simp only [List.length_map, List.length_range]
      have : i + 1 ≤ params.max_input_main_pods := hi
      calc i * params.max_public_statements + j
          < (i + 1) * params.max_public_statements := by ring_nf; omega
        _ ≤ params.max_input_main_pods * params.max_public_statements :=
            Nat.mul_le_mul_right _ this
    rw [List.append_assoc, List.getD_append_right _ _ _ _ (by rw [hslen]; omega)]
    rw [show params.max_input_signed_pods * params.max_signed_pod_values
        + (i * params.max_public_statements + j)
        - ((List.range params.max_input_signed_pods).map (fun i =>
            (List.range params.max_signed_pod_values).map (fun j =>
              padArgsTotal params
                (((inputs.signedPods.getD i noneMPod).pubStatements).getD j
                  (statementNone params))))).flatten.length
        = i * params.max_public_statements + j from by rw [hslen]; omega]
    rw [List.getD_append _ _ _ _ hidx2]
    rw [flatten_getD_double _ _ _ _ _ hmainlens (by simpa using hi) hj]
    rw [getD_range_map _ _ hi, getD_range_map _ _ hj]
  · intro i hi
    have hslen : ((List.range params.max_input_signed_pods).map (fun i =>
        (List.range params.max_signed_pod_values).map (fun j =>
          padArgsTotal params
            (((inputs.signedPods.getD i noneMPod).pubStatements).getD j
              (statementNone params))))).flatten.length
        = params.max_input_signed_pods * params.max_signed_pod_values := by
      rw [flatten_length_const _ _ hsiglens]
      simp
    have hmlen : ((List.range params.max_input_main_pods).map (fun i =>
        (List.range params.max_public_statements).map (fun j =>
          padArgsTotal params
            (((inputs.mainPods.getD i noneMPod).pubStatements).getD j
              (statementNone params))))).flatten.length
        = params.max_input_main_pods * params.max_public_statements := by
      rw [flatten_length_const _ _ hmainlens]
      simp
    rw [List.append_assoc, List.getD_append_right _ _ _ _ (by rw [hslen]; omega)]
    rw [show params.max_input_signed_pods * params.max_signed_pod_values
        + params.max_input_main_pods * params.max_public_statements + i
        - ((List.range params.max_input_signed_pods).map (fun i =>
            (List.range params.max_signed_pod_values).map (fun j =>
              padArgsTotal params
                (((inputs.signedPods.getD i noneMPod).pubStatements).getD j
                  (statementNone params))))).flatten.length
        = params.max_input_main_pods * params.max_public_statements + i from by
      rw [hslen]; omega]
    rw [List.getD_append_right _ _ _ _ (by rw [hmlen]; omega)]
    rw [show params.max_input_main_pods * params.max_public_statements + i
        - ((List.range params.max_input_main_pods).map (fun i =>
            (List.range params.max_public_statements).map (fun j =>
              padArgsTotal params
                (((inputs.mainPods.getD i noneMPod).pubStatements).getD j
                  (statementNone params))))).flatten.length
        = i from by rw [hmlen]; omega]
    rw [getD_range_map _ _ hi]

/-- C9 counterexample: with `max_statement_args = 0` and one local
statement carrying one argument, `fill_pad` panics (modelled `none`):
`layout_statements` does not return a vector for every input. -/
theorem layout_statements_cex :
    layout_statements ⟨1, 1, 1, 1, 1, 0, 1⟩
      ⟨[], [], [(true, (NativePredicate.None, [StatementArg.None]))]⟩
      = Option.none := rfl

/-- C9 witness: the amended layout evaluated on concrete one-slot
parameters with one signed pod and one local statement. -/
theorem layout_statements_spec_witness :
    (∀ pod ∈ [MPod.mk [((NativePredicate.ValueOf : NativePredicate), ([] : List StatementArg))]],
      ∀ st ∈ pod.pubStatements, st.2.length ≤ (1 : Nat)) ∧
    (∃ L : List MStatement,
      layout_statements ⟨1, 1, 1, 1, 1, 1, 1⟩
        ⟨[MPod.mk [((NativePredicate.ValueOf : NativePredicate), ([] : List StatementArg))]],
          [], [(true, (NativePredicate.Equal, [StatementArg.None]))]⟩ = some L ∧
      L.length = 1 * 1 + 1 * 1 + 1 ∧
      (∀ i j, i < 1 → j < 1 →
        L.getD (i * 1 + j) (statementNone ⟨1, 1, 1, 1, 1, 1, 1⟩)
          = padArgsTotal ⟨1, 1, 1, 1, 1, 1, 1⟩
              ((([MPod.mk [((NativePredicate.ValueOf : NativePredicate),
                  ([] : List StatementArg))]].getD i noneMPod).pubStatements).getD j
                (statementNone ⟨1, 1, 1, 1, 1, 1, 1⟩))) ∧
      (∀ i j, i < 1 → j < 1 →
        L.getD (1 * 1 + (i * 1 + j)) (statementNone ⟨1, 1, 1, 1, 1, 1, 1⟩)
          = padArgsTotal ⟨1, 1, 1, 1, 1, 1, 1⟩
              (((([] : List MPod).getD i noneMPod).pubStatements).getD j
                (statementNone ⟨1, 1, 1, 1, 1, 1, 1⟩))) ∧
      (∀ i, i < 1 →
        L.getD (1 * 1 + 1 * 1 + i) (statementNone ⟨1, 1, 1, 1, 1, 1, 1⟩)
          = padArgsTotal ⟨1, 1, 1, 1, 1, 1, 1⟩
              ((([(true, ((NativePredicate.Equal : NativePredicate),
                  [StatementArg.None]))].get? i).map Prod.snd).getD
                (statementNone ⟨1, 1, 1, 1, 1, 1, 1⟩)))) :=
  ⟨by decide,
    layout_statements_spec ⟨1, 1, 1, 1, 1, 1, 1⟩
      ⟨[MPod.mk [((NativePredicate.ValueOf : NativePredicate), ([] : List StatementArg))]],
        [], [(true, (NativePredicate.Equal, [StatementArg.None]))]⟩
      (by decide) (by decide) (by decide)⟩

/-! ## Claims C4, C5: the i64 embedding -/

/-- The spec-mandated decode `lo + (hi << 32)` round-trips the i64
embedding (shown here so the divergence below is attributable to the
code, not the spec). -/
theorem specDecode_roundtrip (v : Int) (hlo : -(2 ^ 63) ≤ v) (hhi : v < 2 ^ 63) :
    specDecodeI64 (valueFromI64 v) = v := by
  unfold specDecodeI64 valueFromI64 u64ToI64 i64ToU64
  simp only [Nat.shiftLeft_eq]
  split <;> omega

/-- C4: the source decodes `(value[0] + value[1] << 32) as i64`, which
by precedence is `((lo + hi) << 32)`; at `v = 1` the embedding gives
`(1, 0, 0, 0)` and decoding returns `2^32`, not `1`, while the
spec-mandated decode returns `1`. -/
theorem tryInto_from_precedence_bug :
    valueFromI64 1 = ⟨1, 0, 0, 0⟩ ∧
    tryIntoI64 (valueFromI64 1) = .ok (4294967296 : Int) ∧
    specDecodeI64 (valueFromI64 1) = 1 := ⟨rfl, rfl, rfl⟩

/-- C5: the value `(2^32, 0, 0, 0)` is outside the integer shape
(`v[0] ≥ 2^32`), yet `try_into` accepts it: the source tests
`value[..2].iter().all(|x| x > u32::MAX)`, so a value with exactly one
limb at or above `2^32` is not rejected, and decodes to `Ok(0)`. -/
theorem tryInto_accepts_noninteger_shape :
    ¬ ((4294967296 : Nat) ≤ 2 ^ 32 - 1) ∧
    tryIntoI64 ⟨4294967296, 0, 0, 0⟩ = .ok 0 := ⟨by norm_num, rfl⟩

/-! ## Claim C6: `hash_str` packing -/

/-- The per-chunk fold of the source equals the little-endian
positional sum: the first byte of a chunk is the least significant. -/
theorem packChunk_eq_packChunkLE (c : List Nat) : packChunk c = packChunkLE c := by
  unfold packChunk packChunkLE
  rw [List.foldl_reverse]
  congr 1
  funext b v
  ring

/-- C6 counterexample: for the one-character string "a" (byte 97) and
the hash function that projects the first packed limb, the source's
`hash_str` differs from the big-endian-within-chunk packing claimed by
the spec. -/
theorem hash_str_not_bigendian :
    hash_str (fun l => ⟨l.headD 0, 0, 0, 0⟩) [97] ≠
      (fun l : List Nat => Hash.mk (l.headD 0) 0 0 0)
        ((chunks7 ([97] ++ [1])).map packChunkBE) := by decide

/-- C6 (amended): `hash_str` hashes the 0x01-padded byte string folded
into field elements 7 bytes at a time, *little-endian within each
chunk* (the first byte of each chunk is the least significant). -/
theorem hash_str_packs_littleendian (h : List Nat → Hash) (s : List Nat) :
    hash_str h s = h ((chunks7 (s ++ [1])).map packChunkLE) := by
  unfold hash_str
  have : packChunk = packChunkLE := funext packChunk_eq_packChunkLE
  rw [this]

/-! ## Claim C7: ProductOf / MaxOf checker arms -/

/-- C7: `Operation::check` has no arm for `ProductOf` or `MaxOf`; both
always fall through to the catch-all `Invalid deduction` error, for
every output statement — in particular even when `v1 = v2 * v3`
(resp. `v1 = max v2 v3`) and the keys match. -/
theorem productOf_maxOf_check_always_error (s1 s2 s3 out : Statement) :
    Operation.check (.ProductOf s1 s2 s3) out = .error "Invalid deduction" ∧
    Operation.check (.MaxOf s1 s2 s3) out = .error "Invalid deduction" := by
  constructor <;> cases out <;> rfl

/-! ## Claim C8: statement serialisation length -/

/-- C8 counterexample: with the default `Params`, serialising
`Statement::None` yields 1 field element, not
`1 + max_statement_args * 8 = 41`: `Statement::to_fields` does not pad
to `max_statement_args` (padding happens later, at layout time). -/
theorem statement_toFields_not_padded :
    (Statement.toFields Statement.None).1.length ≠
      1 + Params.default.max_statement_args * 8 := by decide

/-- C8 (amended): every statement serialises to exactly
`1 + 8 * (number of its own arguments)` field elements (each argument
contributing exactly `STATEMENT_ARG_F_LEN = 8`), and the returned
length tag agrees with the vector length. -/
theorem statement_toFields_length (s : Statement) :
    (Statement.toFields s).1.length = 1 + 8 * s.args.length ∧
    (Statement.toFields s).2 = (Statement.toFields s).1.length := by
  cases s <;> exact ⟨rfl, rfl⟩

/-! ## Claim C10: the padding pod -/

/-- C10: `NonePod` always verifies, has id `PodId(NULL)`, has no
public statements, and consequently its derived key-value map is
empty. -/
theorem nonePod_spec :
    NonePod.verify = true ∧ NonePod.id = ⟨NULL⟩ ∧
    NonePod.pubStatements = [] ∧ podKvs NonePod.pubStatements = [] :=
  ⟨rfl, rfl, rfl, rfl⟩

end Pod2
